import Mathlib

/-!
Shallow embedding of the R-tree implementation in `ch2/arty/tree.py`
(classes `BaseTree`, `CartesianMixin`, `LinearSplitMixin`, `CLRTree`),
together with theorems settling the specification claims.

Coordinates are modelled as rationals.  Python leaf values are modelled as
`Option V`, with `none` standing for Python `None`.  Python exceptions are
modelled with the explicit error type `Err`; since a Python exception keeps
all mutations made before the raise, the stateful operations below return
the (possibly partially mutated) state alongside the error.
-/

/-- Kinds of run-time failure of the Python code.  `config` is the
construction-time validation failure, `heightMismatch` the two explicit
height checks in `_add_normalized_mbr`, `zeroDiv` the `ZeroDivisionError`
raised by the normalisation division in `_pick_linear_seeds`,
`failedDelete` the explicit raise in `_delete_normalized_mbr`, and
`tooFew` / `tooMany` / `badMbr` / `badSize` / `emptyRoot` the raises of
`assert_consistent`.  `stuck` models a dynamic-typing crash (unpacking a
non-node, indexing `None`), and `fuel` marks exhaustion of the recursion
fuel of the embedding (never reached with enough fuel). -/
inductive Err : Type where
  | config : Err
  | heightMismatch : Err
  | zeroDiv : Err
  | failedDelete : Err
  | tooFew : Err
  | tooMany : Err
  | badMbr : Err
  | badSize : Err
  | emptyRoot : Err
  | stuck : Err
  | fuel : Err
  deriving DecidableEq

/-- A minimum bounding rectangle, the 4-tuple `(x1, y1, x2, y2)` used
throughout `tree.py`. -/
structure Mbr : Type where
  x1 : ℚ
  y1 : ℚ
  x2 : ℚ
  y2 : ℚ
  deriving DecidableEq

/-- `MatchType` from `tree.py`. -/
inductive MatchType : Type where
  | EQUAL : MatchType
  | CONTAINED : MatchType
  | CONTAINS : MatchType
  | INTERSECT : MatchType
  deriving DecidableEq

/-- `CartesianMixin._normalize_mbr`. -/
def normalizeMbr (x1 y1 x2 y2 : ℚ) : Mbr :=
  ⟨min x1 x2, min y1 y2, max x1 x2, max y1 y2⟩

/-- `CartesianMixin._intersect`. -/
def intersectMbr (a b : Mbr) : Bool :=
  decide (a.x1 ≤ b.x2) && decide (a.x2 ≥ b.x1) && decide (a.y1 ≤ b.y2) && decide (a.y2 ≥ b.y1)

/-- `CartesianMixin._contains`: is `inner` contained in `outer`? -/
def containsMbr (outer inner : Mbr) : Bool :=
  decide (outer.x1 ≤ inner.x1) && decide (outer.x2 ≥ inner.x2) &&
    decide (outer.y1 ≤ inner.y1) && decide (outer.y2 ≥ inner.y2)

/-- `CartesianMixin._area`. -/
def areaMbr (m : Mbr) : ℚ :=
  (m.x2 - m.x1) * (m.y2 - m.y1)

/-- `CartesianMixin._merge`. -/
def mergeMbr (a b : Mbr) : Mbr :=
  ⟨min a.x1 b.x1, min a.y1 b.y1, max a.x2 b.x2, max a.y2 b.y2⟩

/-- Loop of `BaseTree._calculate_mbr`: left fold of `merge` over the MBRs
of a list of entries, starting from the first. -/
def calculateMbrGo (acc : Mbr) : List (Mbr × α) → Mbr
  | [] => acc
  | (m, _) :: rest => calculateMbrGo (mergeMbr acc m) rest

/-- `BaseTree._calculate_mbr`; `none` is Python's `None` result on an
empty argument list. -/
def calculateMbr : List (Mbr × α) → Option Mbr
  | [] => none
  | (m, _) :: rest => some (calculateMbrGo m rest)

/-- Python `len` applied to a child entry's contents.  At every call site
of `_best` the contents is the 2-tuple `(height, data)` of a node (the
loop variable `data` in `_best` shadows the parameter), and `len` of a
2-tuple is 2. -/
def pyLen (_ : α) : ℕ := 2

/-- Loop of `BaseTree._best`.  The accumulator carries
`(i_best, mbr_best, area_best, delta_area_best, len_best)`. -/
def bestGo (q : Mbr) (height : ℕ) :
    ℕ → List (Mbr × α) → Option (ℕ × Mbr × ℚ × ℚ × ℕ) → Option (ℕ × Mbr)
  | _, [], acc => acc.map fun a => (a.1, a.2.1)
  | i, (mbrChild, child) :: rest, none =>
      let mbrBest := mergeMbr mbrChild q
      bestGo q height (i + 1) rest
        (some (i, mbrBest, areaMbr mbrBest, areaMbr mbrBest - areaMbr mbrChild, pyLen child))
  | i, (mbrChild, child) :: rest, some (iB, mB, aB, dB, lB) =>
      let mbrMerge := mergeMbr mbrChild q
      let aM := areaMbr mbrMerge
      let dM := aM - areaMbr mbrChild
      if dM < dB ∨ (dM = dB ∧ aM < aB) ∨ (dM = dB ∧ aM = aB ∧ height ≠ 0 ∧ pyLen child < lB)
      then bestGo q height (i + 1) rest (some (i, mbrMerge, aM, dM, pyLen child))
      else bestGo q height (i + 1) rest (some (iB, mB, aB, dB, lB))

/-- `BaseTree._best`: the child whose MBR grows least when `q` is added.
Returns `none` (Python `(None, None)`) on an empty list. -/
def best (data : List (Mbr × α)) (q : Mbr) (height : ℕ) : Option (ℕ × Mbr) :=
  bestGo q height 0 data none

/-- Loop of `CartesianMixin.__extremes`.  The state is the 4 indices and
the 4 extreme values `(max x1, max y1, min x2, min y2)`; the Python inner
loop over `j in range(2)` is unrolled. -/
def extremesGo : ℕ → List (Mbr × α) → (ℕ × ℕ × ℕ × ℕ) × (ℚ × ℚ × ℚ × ℚ) →
    (ℕ × ℕ × ℕ × ℕ) × (ℚ × ℚ × ℚ × ℚ)
  | _, [], acc => acc
  | i, (m, _) :: rest, ((i0, i1, i2, i3), (e0, e1, e2, e3)) =>
      let (i0, e0) := if m.x1 > e0 then (i, m.x1) else (i0, e0)
      let (i2, e2) := if m.x2 < e2 then (i, m.x2) else (i2, e2)
      let (i1, e1) := if m.y1 > e1 then (i, m.y1) else (i1, e1)
      let (i3, e3) := if m.y2 < e3 then (i, m.y2) else (i3, e3)
      extremesGo (i + 1) rest ((i0, i1, i2, i3), (e0, e1, e2, e3))

/-- `CartesianMixin.__extremes`; `none` is the `(None, None)` result on an
empty list. -/
def extremes : List (Mbr × α) → Option ((ℕ × ℕ × ℕ × ℕ) × (ℚ × ℚ × ℚ × ℚ))
  | [] => none
  | (m, _) :: rest => some (extremesGo 1 rest ((0, 0, 0, 0), (m.x1, m.y1, m.x2, m.y2)))

/-- `CartesianMixin._pick_linear_seeds`.  `rootEntries` is the entry list
of the current root (`self._root[1]`), read to compute the global extent.
Python raises `ZeroDivisionError` in the normalising list comprehension
when either axis of the global extent has zero width. -/
def pickLinearSeeds (rootEntries : List (Mbr × α)) (data : List (Mbr × β)) :
    Except Err (ℕ × ℕ) :=
  match calculateMbr rootEntries with
  | none => .error .stuck
  | some g =>
    let normX := g.x2 - g.x1
    let normY := g.y2 - g.y1
    match extremes data with
    | none => .error .stuck
    | some ((i0, i1, i2, i3), (e0, e1, e2, e3)) =>
      if normX = 0 ∨ normY = 0 then .error .zeroDiv
      else
        let f0 := e0 / normX
        let f1 := e1 / normY
        let f2 := e2 / normX
        let f3 := e3 / normY
        if f2 - f0 > f3 - f1 ∧ i0 ≠ i2 then .ok (i0, i2)
        else if f2 - f0 < f3 - f1 ∧ i1 ≠ i3 then .ok (i1, i3)
        else .ok (0, 1)

/-- The `while nodes` loop of `LinearSplitMixin._split`.  Python pops
entries from the end of `nodes`; `rev` holds the remaining entries in
reversed order so that the pop is the head.  The two groups are
`(stored mbr, entry list)` pairs.  Returns the final groups and the
entries never popped (still sitting in the original list object), in
reversed order. -/
def splitLoop (minE : ℤ) (height : ℕ) :
    List (Mbr × α) → Mbr × List (Mbr × α) → Mbr × List (Mbr × α) →
    Except Err ((Mbr × List (Mbr × α)) × (Mbr × List (Mbr × α)) × List (Mbr × α))
  | [], g0, g1 => .ok (g0, g1, [])
  | x :: rest, g0, g1 =>
      if ((x :: rest).length : ℤ) < minE then
        if (g0.2.length : ℤ) + ((x :: rest).length : ℤ) = minE then
          match calculateMbr (g0.2 ++ (x :: rest).reverse) with
          | some m => .ok ((m, g0.2 ++ (x :: rest).reverse), g1, x :: rest)
          | none => .error .stuck
        else if (g1.2.length : ℤ) + ((x :: rest).length : ℤ) = minE then
          match calculateMbr (g1.2 ++ (x :: rest).reverse) with
          | some m => .ok (g0, (m, g1.2 ++ (x :: rest).reverse), x :: rest)
          | none => .error .stuck
        else
          match best [(g0.1, (height, g0.2)), (g1.1, (height, g1.2))] x.1 height with
          | some (0, m) => splitLoop minE height rest (m, g0.2 ++ [x]) g1
          | some (1, m) => splitLoop minE height rest g0 (m, g1.2 ++ [x])
          | _ => .error .stuck
      else
        match best [(g0.1, (height, g0.2)), (g1.1, (height, g1.2))] x.1 height with
        | some (0, m) => splitLoop minE height rest (m, g0.2 ++ [x]) g1
        | some (1, m) => splitLoop minE height rest g0 (m, g1.2 ++ [x])
        | _ => .error .stuck

/-- `LinearSplitMixin._split` on an overflowing entry list, as a pure
function.  `rootEntries` is the entry list of the current root, used by
seed selection.  Returns the two `(mbr, (height, entries))` pairs and the
final contents of the original (mutated) list object. -/
def linearSplit (minE : ℤ) (rootEntries : List (Mbr × γ)) (height : ℕ)
    (data : List (Mbr × α)) :
    Except Err (List (Mbr × ℕ × List (Mbr × α)) × List (Mbr × α)) :=
  match pickLinearSeeds rootEntries data with
  | .error e => .error e
  | .ok (i, j) =>
    match data.get? i, data.get? j with
    | some si, some sj =>
      let rest := (data.eraseIdx (max i j)).eraseIdx (min i j)
      match splitLoop minE height rest.reverse (si.1, [si]) (sj.1, [sj]) with
      | .error e => .error e
      | .ok (g0, g1, leftRev) =>
          .ok ([(g0.1, (height, g0.2)), (g1.1, (height, g1.2))], leftRev.reverse)
    | _, _ => .error .stuck

/-- The tree object's scalar state: `_max`, `_min`, `_root` (a pair of
height and heap list id, see `Heap` below) and `_size`. -/
structure TreeState : Type where
  maxE : ℤ
  minE : ℤ
  root : Option (ℕ × ℕ)
  size : ℤ
  deriving DecidableEq

/-- The effective `min_entries` of `BaseTree.__init__`: Python's
`if not min_entries` treats both `None` and `0` as absent and substitutes
`max_entries // 2` (floor division). -/
def effectiveMin (maxE : ℤ) : Option ℤ → ℤ
  | none => Int.fdiv maxE 2
  | some m => if m = 0 then Int.fdiv maxE 2 else m

/-- `BaseTree.__init__`. -/
def initTree (maxE : ℤ) (minE : Option ℤ) : Except Err TreeState :=
  if effectiveMin maxE minE > Int.fdiv maxE 2 then .error .config
  else if effectiveMin maxE minE < 1 then .error .config
  else .ok ⟨maxE, effectiveMin maxE minE, none, 0⟩

/-- Leaf acceptance test of `BaseTree._get_node` (the four `match ==`
branches at height 0), as a function of the match type, the query box
and the stored box. -/
def leafTest (m : MatchType) (q bN : Mbr) : Bool :=
  (m == .EQUAL && q == bN) || (m == .CONTAINED && containsMbr bN q) ||
    (m == .CONTAINS && containsMbr q bN) || (m == .INTERSECT && intersectMbr q bN)

/-- Internal pruning test of `BaseTree._get_node` (the `if height` branch):
`contains(subtree_box, query_box)` for `EQUAL`/`CONTAINED` and
`intersect(subtree_box, query_box)` for `CONTAINS`/`INTERSECT`. -/
def pruneTest (m : MatchType) (bN q : Mbr) : Bool :=
  ((m == .EQUAL || m == .CONTAINED) && containsMbr bN q) ||
    ((m == .CONTAINS || m == .INTERSECT) && intersectMbr bN q)

mutual
/-- A tree node as a pure value: `(height, data)` from `tree.py`, with
leaves (`height = 0`) holding `(mbr, value)` entries and internal nodes
holding `(mbr, child)` entries.  Used for querying a tree that is not
mutated while the query runs. -/
inductive PNode (V : Type) : Type where
  | leaf : List (Mbr × Option V) → PNode V
  | node : ℕ → PEntries V → PNode V
/-- The entry list of an internal node. -/
inductive PEntries (V : Type) : Type where
  | nil : PEntries V
  | cons : Mbr → PNode V → PEntries V → PEntries V
end

/-- Height-0 part of `BaseTree._get_node`: scan the leaf entries, check
the value filter, then the match test. -/
def getLeaf [DecidableEq V] (q : Mbr) (v : Option V) (m : MatchType) :
    List (Mbr × Option V) → List (Option V × Mbr)
  | [] => []
  | (bN, w) :: rest =>
      (if (v == none || v == w) && leafTest m q bN then [(w, bN)] else []) ++
        getLeaf q v m rest

mutual
/-- `BaseTree._get_node`, fully drained into a list (the Python generator
is consumed to exhaustion with no interleaved mutation). -/
def getNode [DecidableEq V] : PNode V → Mbr → Option V → MatchType → List (Option V × Mbr)
  | .leaf entries, q, v, m => getLeaf q v m entries
  | .node _ es, q, v, m => getNodeEntries es q v m
/-- The `for` loop of `BaseTree._get_node` over an internal node's
entries: recurse into a child exactly when the pruning test passes. -/
def getNodeEntries [DecidableEq V] : PEntries V → Mbr → Option V → MatchType → List (Option V × Mbr)
  | .nil, _, _, _ => []
  | .cons b c rest, q, v, m =>
      (if pruneTest m b q then getNode c q v m else []) ++ getNodeEntries rest q v m
end

mutual
/-- `BaseTree._leaves`: depth-first list of the leaf entries of a node. -/
def leavesP : PNode V → List (Mbr × Option V)
  | .leaf entries => entries
  | .node _ es => leavesEntries es
/-- `BaseTree._leaves` over an internal entry list. -/
def leavesEntries : PEntries V → List (Mbr × Option V)
  | .nil => []
  | .cons _ c rest => leavesP c ++ leavesEntries rest
end

/-- The leaf entries of `n` passing the value filter and the leaf match
test, in depth-first order: the reference answer a query should yield. -/
def leafMatches [DecidableEq V] (n : PNode V) (q : Mbr) (v : Option V) (m : MatchType) :
    List (Option V × Mbr) :=
  (leavesP n).filterMap fun e =>
    if (v == none || v == e.2) && leafTest m q e.1 then some (e.2, e.1) else none

/-- The entry list of an internal node with the children dropped, for
feeding `calculateMbr`. -/
def entriesAsPairs : PEntries V → List (Mbr × Unit)
  | .nil => []
  | .cons b _ rest => (b, ()) :: entriesAsPairs rest

/-- The check of invariant 2 for one internal entry `(b, c)`: the
recorded box `b` equals `_calculate_mbr` of the child's own entries. -/
def entryMbrOk (b : Mbr) : PNode V → Bool
  | .leaf entries => some b == calculateMbr entries
  | .node _ es => some b == calculateMbr (entriesAsPairs es)

mutual
/-- Invariant 2 of the spec, recursively: every internal entry's recorded
box equals the merge of its child's entry boxes. -/
def tightP : PNode V → Bool
  | .leaf _ => true
  | .node _ es => tightEntries es
/-- `tightP` over an entry list. -/
def tightEntries : PEntries V → Bool
  | .nil => true
  | .cons b c rest => entryMbrOk b c && tightP c && tightEntries rest
end

/-- A canonical box: `x1 ≤ x2` and `y1 ≤ y2`, as `_normalize_mbr`
guarantees for every stored leaf box. -/
def canonM (b : Mbr) : Bool :=
  decide (b.x1 ≤ b.x2) && decide (b.y1 ≤ b.y2)

mutual
/-- All leaf boxes of the tree are canonical. -/
def canonP : PNode V → Bool
  | .leaf entries => entries.all fun e => canonM e.1
  | .node _ es => canonEntries es
/-- `canonP` over an entry list. -/
def canonEntries : PEntries V → Bool
  | .nil => true
  | .cons _ c rest => canonP c && canonEntries rest
end

/-- Entry contents in the heap model: a leaf value (`Option V`, `none`
standing for Python `None`) or a reference `(height, list id)` to a child
node. -/
inductive HContent (V : Type) : Type where
  | val : Option V → HContent V
  | ref : ℕ → ℕ → HContent V
  deriving DecidableEq

/-- A heap entry `(mbr, contents)`. -/
abbrev HEntry (V : Type) := Mbr × HContent V

/-- The mutable store of entry lists.  Python nodes are `(height, data)`
tuples whose `data` list is mutated in place; the heap maps a list id to
the list's current contents, so that aliasing between the tree and live
generators is represented faithfully. -/
structure Heap (V : Type) : Type where
  next : ℕ
  mem : List (ℕ × List (HEntry V))
  deriving DecidableEq

/-- Read a list object. -/
def Heap.get (h : Heap V) (lid : ℕ) : Option (List (HEntry V)) :=
  (h.mem.find? fun p => p.1 == lid).map (fun p => p.2)

/-- Overwrite a list object in place. -/
def Heap.set (h : Heap V) (lid : ℕ) (l : List (HEntry V)) : Heap V :=
  ⟨h.next, h.mem.map fun p => if p.1 == lid then (lid, l) else p⟩

/-- Allocate a fresh list object. -/
def Heap.alloc (h : Heap V) (l : List (HEntry V)) : Heap V × ℕ :=
  (⟨h.next + 1, (h.next, l) :: h.mem⟩, h.next)

/-- The heap of a freshly constructed tree. -/
def emptyHeap : Heap V := ⟨0, []⟩

/-- Read the leaf entries of a height-0 list. -/
def readLeafList : List (HEntry V) → Option (List (Mbr × Option V))
  | [] => some []
  | (b, .val w) :: rest => (readLeafList rest).map (fun l => (b, w) :: l)
  | (_, .ref _ _) :: _ => none

/-- Read an internal entry list out of the heap, reading each child node
in place (fuel decreases on every recursive call, so the recursion is
structural and the definition evaluates). -/
def readPEntries : ℕ → Heap V → List (HEntry V) → Option (PEntries V)
  | 0, _, _ => none
  | _ + 1, _, [] => some .nil
  | _ + 1, _, (_, .val _) :: _ => none
  | fuel + 1, heap, (b, .ref ch cl) :: rest =>
    match heap.get cl with
    | none => none
    | some dataChild =>
      match (if ch = 0 then (readLeafList dataChild).map PNode.leaf
             else (readPEntries fuel heap dataChild).map (PNode.node ch)),
          readPEntries fuel heap rest with
      | some c, some r => some (.cons b c r)
      | _, _ => none

/-- Read a node out of the heap as a pure `PNode` (for querying a tree
between mutations). -/
def readPNode (fuel : ℕ) (heap : Heap V) (r : ℕ × ℕ) : Option (PNode V) :=
  match heap.get r.2 with
  | none => none
  | some data =>
    if r.1 = 0 then (readLeafList data).map PNode.leaf
    else (readPEntries fuel heap data).map (PNode.node r.1)

/-- Heap-level `LinearSplitMixin._split` on the list object `lid` of a
node at `height`: run the pure split, write the surviving contents of the
original list object back (entries popped by the loop are gone from it),
and allocate fresh list objects for the two groups.  `root` is
`self._root`, read by seed selection. -/
def splitHeap (heap : Heap V) (root : Option (ℕ × ℕ)) (minE : ℤ)
    (height : ℕ) (lid : ℕ) : Heap V × Except Err (Option (List (HEntry V))) :=
  match root with
  | none => (heap, .error .stuck)
  | some r =>
    match heap.get r.2, heap.get lid with
    | some rootData, some data =>
      match linearSplit minE rootData height data with
      | .error e => (heap, .error e)
      | .ok (pairs, leftover) =>
        match pairs with
        | [(b0, (h0, g0)), (b1, (h1, g1))] =>
          let heap1 := heap.set lid leftover
          let (heap2, l0) := heap1.alloc g0
          let (heap3, l1) := heap2.alloc g1
          (heap3, .ok (some [(b0, .ref h0 l0), (b1, .ref h1 l1)]))
        | _ => (heap, .error .stuck)
    | _, _ => (heap, .error .stuck)

/-- `BaseTree._add_node`.  Returns the updated heap and either `none`
(no overflow) or the two split entries to put into the parent.  On error
the heap keeps all mutations made before the raise, as in Python. -/
def addNode (st : TreeState) : ℕ → Heap V → ℕ × ℕ → ℕ → HContent V → Mbr →
    Heap V × Except Err (Option (List (HEntry V)))
  | 0, heap, _, _, _, _ => (heap, .error .fuel)
  | fuel + 1, heap, r, target, content, mbr =>
    match heap.get r.2 with
    | none => (heap, .error .stuck)
    | some data =>
      if r.1 ≠ target then
        match best data mbr r.1 with
        | none => (heap, .error .stuck)
        | some (iBest, mbrBest) =>
          match data.get? iBest with
          | none => (heap, .error .stuck)
          | some (_, c) =>
            let heap1 := heap.set r.2 (data.set iBest (mbrBest, c))
            match c with
            | .val _ => (heap1, .error .stuck)
            | .ref ch cl =>
              match addNode st fuel heap1 (ch, cl) target content mbr with
              | (heap2, .error e) => (heap2, .error e)
              | (heap2, .ok none) => (heap2, .ok none)
              | (heap2, .ok (some sp)) =>
                match heap2.get r.2 with
                | none => (heap2, .error .stuck)
                | some data2 =>
                  let data3 := data2.eraseIdx iBest ++ sp
                  let heap3 := heap2.set r.2 data3
                  if (data3.length : ℤ) ≤ st.maxE then (heap3, .ok none)
                  else splitHeap heap3 st.root st.minE r.1 r.2
      else
        let data3 := data ++ [(mbr, content)]
        let heap3 := heap.set r.2 data3
        if (data3.length : ℤ) ≤ st.maxE then (heap3, .ok none)
        else splitHeap heap3 st.root st.minE r.1 r.2

/-- `BaseTree._add_normalized_mbr`. -/
def addNormalizedMbr (st : TreeState) (heap : Heap V) (target : ℕ) (mbr : Mbr)
    (content : HContent V) (fuel : ℕ) : TreeState × Heap V × Option Err :=
  match st.root with
  | some r =>
    if target > r.1 then (st, heap, some .heightMismatch)
    else
      match addNode st fuel heap r target content mbr with
      | (heap1, .error e) => (st, heap1, some e)
      | (heap1, .ok none) => (st, heap1, none)
      | (heap1, .ok (some sp)) =>
        match sp.get? 0 with
        | some (_, .ref h _) =>
          let (heap2, lid) := heap1.alloc sp
          ({st with root := some (h + 1, lid)}, heap2, none)
        | _ => (st, heap1, some .stuck)
  | none =>
    if target ≠ 0 then (st, heap, some .heightMismatch)
    else
      let (heap1, lid) := heap.alloc [(mbr, content)]
      ({st with root := some (0, lid)}, heap1, none)

/-- `BaseTree.add_point`: the size counter is only incremented when the
insertion finished without raising. -/
def addPoint (st : TreeState) (heap : Heap V) (v : Option V) (x y : ℚ) (fuel : ℕ) :
    TreeState × Heap V × Option Err :=
  match addNormalizedMbr st heap 0 ⟨x, y, x, y⟩ (.val v) fuel with
  | (st1, heap1, none) => ({st1 with size := st1.size + 1}, heap1, none)
  | r => r

/-- `BaseTree.add_box`. -/
def addBox (st : TreeState) (heap : Heap V) (v : Option V) (x1 y1 x2 y2 : ℚ) (fuel : ℕ) :
    TreeState × Heap V × Option Err :=
  match addNormalizedMbr st heap 0 (normalizeMbr x1 y1 x2 y2) (.val v) fuel with
  | (st1, heap1, none) => ({st1 with size := st1.size + 1}, heap1, none)
  | r => r

/-- The entry loop of `BaseTree._assert_consistent` over the entries of
the internal node `r`, from position `i`: check each recorded box against
the recomputed child MBR, apply the child's own fan-out checks (the
child is never the root), recurse, and sum leaf counts. -/
def assertLoop (minE maxE : ℤ) : ℕ → Heap V → ℕ × ℕ → ℕ → Except Err ℤ
  | 0, _, _, _ => .error .fuel
  | fuel + 1, heap, r, i =>
    match heap.get r.2 with
    | none => .error .stuck
    | some data =>
      match data.get? i with
      | none => .ok 0
      | some (_, .val _) => .error .stuck
      | some (b, .ref ch cl) =>
        match heap.get cl with
        | none => .error .stuck
        | some dataChild =>
          if calculateMbr dataChild ≠ some b then .error .badMbr
          else if (dataChild.length : ℤ) < minE then .error .tooFew
          else if (dataChild.length : ℤ) > maxE then .error .tooMany
          else
            match (if ch ≠ 0 then assertLoop minE maxE fuel heap (ch, cl) 0
                   else .ok (dataChild.length : ℤ)),
                assertLoop minE maxE fuel heap r (i + 1) with
            | .ok c1, .ok c2 => .ok (c1 + c2)
            | .error e, _ => .error e
            | _, .error e => .error e

/-- `BaseTree.assert_consistent` (with the root-level checks of
`_assert_consistent` inlined; the root is exempt from the fan-out
floor). -/
def assertConsistent (st : TreeState) (heap : Heap V) (fuel : ℕ) : Except Err Unit :=
  if st.size ≠ 0 ∧ st.root = none then .error .emptyRoot
  else
    match st.root with
    | none => if (0 : ℤ) ≠ st.size then .error .badSize else .ok ()
    | some r =>
      match heap.get r.2 with
      | none => .error .stuck
      | some data =>
        if (data.length : ℤ) > st.maxE then .error .tooMany
        else
          match (if r.1 ≠ 0 then assertLoop st.minE st.maxE fuel heap r 0
                 else .ok (data.length : ℤ)) with
          | .error e => .error e
          | .ok n => if n ≠ st.size then .error .badSize else .ok ()

/-- `BaseTree._leaves` over the heap, fully drained (the orphan subtree
it walks is detached, so no interleaved mutation can affect it).  `i` is
the position of the entry loop of the internal node `r`. -/
def leavesH : ℕ → Heap V → ℕ × ℕ → ℕ → Except Err (List (Mbr × HContent V))
  | 0, _, _, _ => .error .fuel
  | fuel + 1, heap, r, i =>
    match heap.get r.2 with
    | none => .error .stuck
    | some data =>
      if r.1 = 0 then .ok data
      else
        match data.get? i with
        | none => .ok []
        | some (_, .val _) => .error .stuck
        | some (_, .ref ch cl) =>
          match leavesH fuel heap (ch, cl) 0, leavesH fuel heap r (i + 1) with
          | .ok a, .ok b => .ok (a ++ b)
          | .error e, _ => .error e
          | _, .error e => .error e

/-- One suspended activation of the `_get_node` generator: the node's
height, its (aliased, possibly since mutated) entry list object, and the
position of the CPython list iterator, which reads the live list by
index. -/
structure Frame : Type where
  h : ℕ
  lid : ℕ
  idx : ℕ
  deriving DecidableEq

/-- Pull the next match from a suspended `_get_node` generator stack
(innermost activation first), exactly as CPython resumes it: the
iterator of each `for` loop re-reads its live list at the saved index, so
deletions and appends made since the last pull are observed. -/
def genNext [DecidableEq V] (q : Mbr) (v : Option V) (m : MatchType) :
    ℕ → Heap V → List Frame → Except Err (Option ((Option V × Mbr) × List Frame))
  | _, _, [] => .ok none
  | 0, _, _ :: _ => .error .fuel
  | fuel + 1, heap, fr :: rest =>
    match heap.get fr.lid with
    | none => .error .stuck
    | some data =>
      match data.get? fr.idx with
      | none => genNext q v m fuel heap rest
      | some (bN, c) =>
        let fr1 : Frame := ⟨fr.h, fr.lid, fr.idx + 1⟩
        if fr.h ≠ 0 then
          match c with
          | .ref ch cl =>
            if pruneTest m bN q then genNext q v m fuel heap (⟨ch, cl, 0⟩ :: fr1 :: rest)
            else genNext q v m fuel heap (fr1 :: rest)
          | .val _ => .error .stuck
        else
          match c with
          | .val w =>
            if (v == none || v == w) && leafTest m q bN then .ok (some ((w, bN), fr1 :: rest))
            else genNext q v m fuel heap (fr1 :: rest)
          | .ref _ _ => .error .stuck

/-- Python `value == contents_node` at a leaf during delete. -/
def hcontentEqVal [DecidableEq V] (v : Option V) : HContent V → Bool
  | .val w => v == w
  | .ref _ _ => false

/-- `BaseTree._delete_node`, with `i` the position of the entry loop.
Returns `none` when nothing below this node matched (Python's implicit
`None`), otherwise the `(delete me, orphans to reinsert)` pair. -/
def deleteNode [DecidableEq V] (minE : ℤ) (target : Mbr) (v : Option V) :
    ℕ → Heap V → ℕ × ℕ → ℕ →
    Heap V × Except Err (Option (Bool × List (ℕ × Mbr × HContent V)))
  | 0, heap, _, _ => (heap, .error .fuel)
  | fuel + 1, heap, r, i =>
    match heap.get r.2 with
    | none => (heap, .error .stuck)
    | some data =>
      match data.get? i with
      | none => (heap, .ok none)
      | some (bN, c) =>
        if r.1 ≠ 0 then
          if containsMbr bN target then
            match c with
            | .val _ => (heap, .error .stuck)
            | .ref ch cl =>
              match deleteNode minE target v fuel heap (ch, cl) 0 with
              | (heap1, .error e) => (heap1, .error e)
              | (heap1, .ok none) => deleteNode minE target v fuel heap1 r (i + 1)
              | (heap1, .ok (some (del, inserts))) =>
                match heap1.get r.2 with
                | none => (heap1, .error .stuck)
                | some data1 =>
                  if del then
                    let data2 := data1.eraseIdx i
                    let heap2 := heap1.set r.2 data2
                    if (data2.length : ℤ) < minE then
                      (heap2, .ok (some (true, inserts ++ data2.map fun e => (r.1, e.1, e.2))))
                    else (heap2, .ok (some (false, inserts)))
                  else
                    match data1.get? i with
                    | none => (heap1, .error .stuck)
                    | some (_, .val _) => (heap1, .error .stuck)
                    | some (_, .ref hch lch) =>
                      match heap1.get lch with
                      | none => (heap1, .error .stuck)
                      | some children =>
                        match calculateMbr children with
                        | none => (heap1, .error .stuck)
                        | some newMbr =>
                          (heap1.set r.2 (data1.set i (newMbr, .ref hch lch)),
                            .ok (some (false, inserts)))
          else deleteNode minE target v fuel heap r (i + 1)
        else
          if bN == target && (v == none || hcontentEqVal v c) then
            let data2 := data.eraseIdx i
            let heap2 := heap.set r.2 data2
            if (data2.length : ℤ) < minE then
              (heap2, .ok (some (true, data2.map fun e => ((0 : ℕ), e.1, e.2))))
            else (heap2, .ok (some (false, [])))
          else deleteNode minE target v fuel heap r (i + 1)

/-- Insert every leaf pair of a decomposed orphan from the root
(the inner loop of `BaseTree._reinsert`). -/
def addLeaves (fuel : ℕ) : TreeState → Heap V → List (Mbr × HContent V) →
    TreeState × Heap V × Option Err
  | st, heap, [] => (st, heap, none)
  | st, heap, (mbr, c) :: rest =>
    match addNormalizedMbr st heap 0 mbr c fuel with
    | (st1, heap1, none) => addLeaves fuel st1 heap1 rest
    | r => r

/-- The loop of `BaseTree._reinsert`; `maxH` is the tree height captured
once before the loop. -/
def reinsertGo (fuel : ℕ) : TreeState → Heap V → ℕ → List (ℕ × Mbr × HContent V) →
    TreeState × Heap V × Option Err
  | st, heap, _, [] => (st, heap, none)
  | st, heap, maxH, (h, mbr, c) :: rest =>
    if h > maxH then
      match c with
      | .val _ => (st, heap, some .stuck)
      | .ref ch cl =>
        match leavesH fuel heap (ch, cl) 0 with
        | .error e => (st, heap, some e)
        | .ok ls =>
          match addLeaves fuel st heap ls with
          | (st1, heap1, none) => reinsertGo fuel st1 heap1 maxH rest
          | r => r
    else
      match addNormalizedMbr st heap h mbr c fuel with
      | (st1, heap1, none) => reinsertGo fuel st1 heap1 maxH rest
      | r => r

/-- `BaseTree._reinsert`. -/
def reinsert (fuel : ℕ) (st : TreeState) (heap : Heap V)
    (inserts : List (ℕ × Mbr × HContent V)) : TreeState × Heap V × Option Err :=
  let maxH := match st.root with | some r => r.1 | none => 0
  reinsertGo fuel st heap maxH inserts

/-- The root-collapse step at the bottom of the `_delete_normalized_mbr`
loop: an internal root with exactly one child is replaced by that
child. -/
def collapseRoot (st : TreeState) (heap : Heap V) : Except Err TreeState :=
  match st.root with
  | none => .ok st
  | some r =>
    match heap.get r.2 with
    | none => .error .stuck
    | some data =>
      if data.length = 1 ∧ r.1 ≠ 0 then
        match data.get? 0 with
        | some (_, .ref ch cl) => .ok {st with root := some (ch, cl)}
        | _ => .error .stuck
      else .ok st

/-- The `for` loop of `BaseTree._delete_normalized_mbr`: pull the next
match from the live generator, physically delete it, reinsert orphans,
count, and collapse the root, on the shared mutating heap. -/
def deleteLoop [DecidableEq V] (q : Mbr) (v : Option V) (m : MatchType) :
    ℕ → TreeState → Heap V → List Frame → ℤ → TreeState × Heap V × Except Err ℤ
  | fuel, st, heap, gen, count =>
    match genNext q v m fuel heap gen with
    | .error e => (st, heap, .error e)
    | .ok none => (st, heap, .ok count)
    | .ok (some ((_, mbrMatch), gen1)) =>
      match fuel with
      | 0 => (st, heap, .error .fuel)
      | fuel + 1 =>
        match st.root with
        | none => (st, heap, .error .stuck)
        | some r =>
          match deleteNode st.minE mbrMatch v fuel heap r 0 with
          | (heap1, .error e) => (st, heap1, .error e)
          | (heap1, .ok none) => (st, heap1, .error .failedDelete)
          | (heap1, .ok (some (del, inserts))) =>
            let st1 := if del then {st with root := none} else st
            match reinsert fuel st1 heap1 inserts with
            | (st2, heap2, some e) => (st2, heap2, .error e)
            | (st2, heap2, none) =>
              let st3 := {st2 with size := st2.size - 1}
              match collapseRoot st3 heap2 with
              | .error e => (st3, heap2, .error e)
              | .ok st4 => deleteLoop q v m fuel st4 heap2 gen1 (count + 1)

/-- `BaseTree._delete_normalized_mbr`.  The generator is created lazily
but its first pull happens before any mutation, so it starts from the
root current at call time. -/
def deleteNormalizedMbr [DecidableEq V] (st : TreeState) (heap : Heap V) (mbr : Mbr)
    (v : Option V) (m : MatchType) (fuel : ℕ) : TreeState × Heap V × Except Err ℤ :=
  let gen : List Frame := match st.root with | none => [] | some r => [⟨r.1, r.2, 0⟩]
  deleteLoop mbr v m fuel st heap gen 0

/-- `BaseTree.delete_point`. -/
def deletePointH [DecidableEq V] (st : TreeState) (heap : Heap V) (x y : ℚ)
    (v : Option V) (m : MatchType) (fuel : ℕ) : TreeState × Heap V × Except Err ℤ :=
  deleteNormalizedMbr st heap ⟨x, y, x, y⟩ v m fuel

/-- `BaseTree.delete_box`. -/
def deleteBoxH [DecidableEq V] (st : TreeState) (heap : Heap V) (x1 y1 x2 y2 : ℚ)
    (v : Option V) (m : MatchType) (fuel : ℕ) : TreeState × Heap V × Except Err ℤ :=
  deleteNormalizedMbr st heap (normalizeMbr x1 y1 x2 y2) v m fuel

/-- `BaseTree.get_box`, drained on an otherwise unmutated tree: read the
root into a pure node and run `_get_node`. -/
def getBoxH [DecidableEq V] (st : TreeState) (heap : Heap V) (x1 y1 x2 y2 : ℚ)
    (v : Option V) (m : MatchType) (fuel : ℕ) : Except Err (List (Option V × Mbr)) :=
  match st.root with
  | none => .ok []
  | some r =>
    match readPNode fuel heap r with
    | none => .error .stuck
    | some n => .ok (getNode n (normalizeMbr x1 y1 x2 y2) v m)

/-- `BaseTree.get_point`. -/
def getPointH [DecidableEq V] (st : TreeState) (heap : Heap V) (x y : ℚ)
    (v : Option V) (m : MatchType) (fuel : ℕ) : Except Err (List (Option V × Mbr)) :=
  match st.root with
  | none => .ok []
  | some r =>
    match readPNode fuel heap r with
    | none => .error .stuck
    | some n => .ok (getNode n ⟨x, y, x, y⟩ v m)

deriving instance DecidableEq for Except

attribute [local semireducible] Rat.sub Rat.add Rat.mul Rat.inv

/-- C7 counterexample: explicitly supplying `min_entries = 0` does not
fail construction.  Python's `if not min_entries` treats `0` as absent,
substitutes `max_entries // 2 = 4`, and the validation passes. -/
theorem c7_counterexample_min_zero_accepted :
    initTree 8 (some 0) = .ok ⟨8, 4, none, 0⟩ := by decide

/-- C7 (amended): construction succeeds exactly when the effective
`min_entries` — the supplied value when it is nonzero, else
`max_entries // 2` (an explicit `0` is treated as omitted) — satisfies
`1 ≤ min ≤ max_entries // 2`; every successfully constructed tree
satisfies `1 ≤ min_entries` and `2 * min_entries ≤ max_entries`. -/
theorem c7_init_validation (maxE : ℤ) (m : Option ℤ) :
    ((∃ t, initTree maxE m = .ok t) ↔
      1 ≤ effectiveMin maxE m ∧ effectiveMin maxE m ≤ Int.fdiv maxE 2) ∧
    (∀ t, initTree maxE m = .ok t →
      t = ⟨maxE, effectiveMin maxE m, none, 0⟩ ∧ 1 ≤ t.minE ∧ 2 * t.minE ≤ maxE) ∧
    initTree maxE (some 0) = initTree maxE none := by
  have hfd : Int.fdiv maxE 2 = maxE / 2 := Int.fdiv_eq_ediv maxE (by norm_num)
  refine ⟨⟨?_, ?_⟩, ?_, ?_⟩
  · rintro ⟨t, ht⟩
    unfold initTree at ht
    split at ht
    · exact absurd ht (by simp)
    · split at ht
      · exact absurd ht (by simp)
      · rename_i h1 h2
        exact ⟨by omega, by omega⟩
  · rintro ⟨h1, h2⟩
    refine ⟨⟨maxE, effectiveMin maxE m, none, 0⟩, ?_⟩
    unfold initTree
    rw [if_neg (by omega), if_neg (by omega)]
  · intro t ht
    unfold initTree at ht
    split at ht
    · exact absurd ht (by simp)
    · split at ht
      · exact absurd ht (by simp)
      · rename_i h1 h2
        refine ⟨by injection ht with h; exact h.symm, ?_, ?_⟩
        · injection ht with h; subst h; simpa using by omega
        · injection ht with h; subst h
          show 2 * effectiveMin maxE m ≤ maxE
          rw [hfd] at h1; omega
  · simp [initTree, effectiveMin]

/-- C7 witness: the characterisation applied at `max_entries = 8`,
`min_entries = 3`. -/
theorem c7_init_validation_witness :
    ∃ t, initTree 8 (some 3) = .ok t :=
  (c7_init_validation 8 (some 3)).1.mpr (by decide)

/-- Helper for the `_best` tie-break: with the running `len_best` equal to
2 (the Python `len` of a node 2-tuple), the child-count clause can never
fire, so the result does not depend on `height`. -/
theorem bestGo_height_irrelevant {α : Type} (q : Mbr) (h : ℕ) :
    ∀ (l : List (Mbr × α)) (i : ℕ) (acc : Option (ℕ × Mbr × ℚ × ℚ × ℕ)),
      (acc = none ∨ ∃ a, acc = some a ∧ a.2.2.2.2 = 2) →
      bestGo q h i l acc = bestGo q 0 i l acc := by
  intro l
  induction l with
  | nil => intro i acc _; cases acc <;> rfl
  | cons x rest ih =>
    intro i acc hacc
    obtain ⟨mbrChild, child⟩ := x
    rcases hacc with h0 | ⟨⟨iB, mB, aB, dB, lB⟩, ha, hlen⟩
    · subst h0
      simp only [bestGo]
      exact ih (i + 1) _ (Or.inr ⟨_, rfl, rfl⟩)
    · subst ha
      simp only at hlen
      subst hlen
      simp only [bestGo]
      have h2 : ¬ (pyLen child < 2) := by simp [pyLen]
      by_cases hc : (areaMbr (mergeMbr mbrChild q) - areaMbr mbrChild < dB ∨
          (areaMbr (mergeMbr mbrChild q) - areaMbr mbrChild = dB ∧
            areaMbr (mergeMbr mbrChild q) < aB))
      · rw [if_pos (by tauto), if_pos (by tauto)]
        exact ih (i + 1) _ (Or.inr ⟨_, rfl, rfl⟩)
      · have hneg : ∀ hh : ℕ, ¬(areaMbr (mergeMbr mbrChild q) - areaMbr mbrChild < dB ∨
            (areaMbr (mergeMbr mbrChild q) - areaMbr mbrChild = dB ∧
              areaMbr (mergeMbr mbrChild q) < aB) ∨
            (areaMbr (mergeMbr mbrChild q) - areaMbr mbrChild = dB ∧
              areaMbr (mergeMbr mbrChild q) = aB ∧ hh ≠ 0 ∧ pyLen child < 2)) := by
          intro hh hcon
          rcases hcon with hA | hA | ⟨-, -, -, hlt⟩
          · exact hc (Or.inl hA)
          · exact hc (Or.inr hA)
          · exact h2 hlt
        rw [if_neg (hneg h), if_neg (hneg 0)]
        exact ih (i + 1) _ (Or.inr ⟨_, rfl, rfl⟩)

/-- C5 (amended): the child-count tie-break of `_best` never influences
the result at any level.  The loop variable `data` in `_best` shadows the
entry list, so `len(data)` is the length of the child's `(height, data)`
2-tuple — constantly 2 — and the comparison `len(data) < len_best` is
always false; hence `_best` is independent of `height` and on full ties
the earliest candidate is kept. -/
theorem c5_no_child_count_preference {α : Type} (data : List (Mbr × α)) (q : Mbr)
    (height : ℕ) : best data q height = best data q 0 :=
  bestGo_height_irrelevant q height data 0 none (Or.inl rfl)

/-- The two candidates of the C5 counterexample: identical boxes (so the
area-increase and merged-area comparisons tie exactly), the first with
three children, the second with one child. -/
def c5Data : List (Mbr × (ℕ × List (Mbr × ℕ))) :=
  [(⟨0, 0, 1, 1⟩, (1, [(⟨0, 0, 1, 1⟩, 0), (⟨0, 0, 1, 1⟩, 0), (⟨0, 0, 1, 1⟩, 0)])),
   (⟨0, 0, 1, 1⟩, (1, [(⟨0, 0, 1, 1⟩, 0)]))]

/-- C5 counterexample: at an internal level (`height = 1`), with the area
increase and resulting merged area tied between the two candidates and
the second candidate having fewer children (1 < 3), `_best` still returns
the first candidate — the claimed fewer-children preference is not
applied. -/
theorem c5_counterexample :
    best c5Data ⟨0, 0, 1, 1⟩ 1 = some (0, ⟨0, 0, 1, 1⟩) ∧
    best c5Data ⟨0, 0, 1, 1⟩ 1 ≠ some (1, ⟨0, 0, 1, 1⟩) ∧
    areaMbr (mergeMbr ⟨0, 0, 1, 1⟩ ⟨0, 0, 1, 1⟩) - areaMbr (⟨0, 0, 1, 1⟩ : Mbr) =
      areaMbr (mergeMbr ⟨0, 0, 1, 1⟩ ⟨0, 0, 1, 1⟩) - areaMbr (⟨0, 0, 1, 1⟩ : Mbr) ∧
    ((c5Data.get? 1).map fun e => e.2.2.length) = some 1 ∧
    ((c5Data.get? 0).map fun e => e.2.2.length) = some 3 := by
  decide

/-- C6 counterexample: an overflowing set of five identical point boxes
whose global root extent is degenerate on both axes.  Seed selection does
not fall back to the first two entries: it fails with the
`ZeroDivisionError` of the normalising division. -/
theorem c6_counterexample :
    pickLinearSeeds (List.replicate 5 ((⟨0, 0, 0, 0⟩ : Mbr), (7 : ℕ)))
        (List.replicate 5 ((⟨0, 0, 0, 0⟩ : Mbr), (7 : ℕ))) = .error .zeroDiv ∧
    pickLinearSeeds (List.replicate 5 ((⟨0, 0, 0, 0⟩ : Mbr), (7 : ℕ)))
        (List.replicate 5 ((⟨0, 0, 0, 0⟩ : Mbr), (7 : ℕ))) ≠ .ok (0, 1) := by
  decide

/-- C6 (amended): when both axes of the global root extent are nonzero,
seed selection never fails, and it falls back to the first two entries
`(0, 1)` exactly when neither axis guard fires — in particular whenever
the two extreme entries on the winning axis are the same entry (the
guard of the losing axis cannot fire, so the fallback is taken), and
also on an exact tie of the normalized separations.  When either axis of
the global root extent is degenerate, seed selection raises
`ZeroDivisionError` instead of falling back. -/
theorem c6_seed_selection {α β : Type} (rootEntries : List (Mbr × α))
    (data : List (Mbr × β)) (g : Mbr)
    (hg : calculateMbr rootEntries = some g) (hd : data ≠ []) :
    ((g.x2 - g.x1 = 0 ∨ g.y2 - g.y1 = 0) →
      pickLinearSeeds rootEntries data = .error .zeroDiv) ∧
    (g.x2 - g.x1 ≠ 0 → g.y2 - g.y1 ≠ 0 →
      (∃ p, pickLinearSeeds rootEntries data = .ok p) ∧
      ∀ i0 i1 i2 i3 e0 e1 e2 e3,
        extremes data = some ((i0, i1, i2, i3), (e0, e1, e2, e3)) →
        (e2 / (g.x2 - g.x1) - e0 / (g.x2 - g.x1) >
            e3 / (g.y2 - g.y1) - e1 / (g.y2 - g.y1) → i0 = i2) →
        (e2 / (g.x2 - g.x1) - e0 / (g.x2 - g.x1) <
            e3 / (g.y2 - g.y1) - e1 / (g.y2 - g.y1) → i1 = i3) →
        pickLinearSeeds rootEntries data = .ok (0, 1)) := by
  obtain ⟨idx, ext0, hex⟩ : ∃ idx ext0, extremes data = some (idx, ext0) := by
    cases data with
    | nil => exact absurd rfl hd
    | cons x rest => exact ⟨_, _, rfl⟩
  obtain ⟨j0, j1, j2, j3⟩ := idx
  obtain ⟨f0, f1, f2, f3⟩ := ext0
  constructor
  · intro hz
    simp only [pickLinearSeeds, hg, hex]
    rw [if_pos hz]
  · intro hx hy
    constructor
    · simp only [pickLinearSeeds, hg, hex]
      rw [if_neg (by tauto)]
      split
      · exact ⟨_, rfl⟩
      · split
        · exact ⟨_, rfl⟩
        · exact ⟨_, rfl⟩
    · intro i0 i1 i2 i3 e0 e1 e2 e3 hex2 hwx hwy
      rw [hex] at hex2
      have hP := Option.some.inj hex2
      obtain ⟨⟨hj0, hj1, hj2, hj3⟩, hf0, hf1, hf2, hf3⟩ :
          (j0 = i0 ∧ j1 = i1 ∧ j2 = i2 ∧ j3 = i3) ∧
            f0 = e0 ∧ f1 = e1 ∧ f2 = e2 ∧ f3 = e3 := by
        simpa using hP
      subst hj0; subst hj1; subst hj2; subst hj3
      subst hf0; subst hf1; subst hf2; subst hf3
      simp only [pickLinearSeeds, hg, hex]
      rw [if_neg (by tauto)]
      rw [if_neg (by rintro ⟨hgt, hne⟩; exact hne (hwx hgt))]
      rw [if_neg (by rintro ⟨hlt, hne⟩; exact hne (hwy hlt))]

/-- The C6 witness input: two entries whose x-axis normalized separation
strictly wins while both x extremes are the same entry (index 0) and the
y extremes differ — the code falls back to `(0, 1)`. -/
def c6Fallback : List (Mbr × ℕ) := [(⟨0, 0, 10, 1⟩, 1), (⟨0, 1, 10, 2⟩, 2)]

/-- C6 witness: the amended statement applied with the x axis strictly
winning and its two extremes coinciding (the y extremes differ), where
seed selection succeeds with the fallback pair. -/
theorem c6_seed_selection_witness :
    pickLinearSeeds c6Fallback c6Fallback = .ok (0, 1) :=
  ((c6_seed_selection c6Fallback c6Fallback ⟨0, 0, 10, 2⟩ (by decide) (by decide)).2
    (by decide) (by decide)).2 0 1 0 0 0 1 10 1 (by decide)
    (fun _ => rfl) (fun h => absurd h (by decide))

/-- The state of `CLRTree(max_entries=4, min_entries=2)`. -/
def tree42 : TreeState := ⟨4, 2, none, 0⟩

/-- The empty heap of values `ℕ`. -/
def heap0 : Heap ℕ := emptyHeap

/-- `add_point(1, 0, 0)` on the fresh tree. -/
def samePointRun1 : TreeState × Heap ℕ × Option Err := addPoint tree42 heap0 (some 1) 0 0 100

/-- Second identical `add_point`. -/
def samePointRun2 : TreeState × Heap ℕ × Option Err :=
  addPoint samePointRun1.1 samePointRun1.2.1 (some 2) 0 0 100

/-- Third identical `add_point`. -/
def samePointRun3 : TreeState × Heap ℕ × Option Err :=
  addPoint samePointRun2.1 samePointRun2.2.1 (some 3) 0 0 100

/-- Fourth identical `add_point`. -/
def samePointRun4 : TreeState × Heap ℕ × Option Err :=
  addPoint samePointRun3.1 samePointRun3.2.1 (some 4) 0 0 100

/-- Fifth identical `add_point`: overflows the root leaf, and the split's
seed selection divides by the zero width of the degenerate root extent. -/
def samePointRun5 : TreeState × Heap ℕ × Option Err :=
  addPoint samePointRun4.1 samePointRun4.2.1 (some 5) 0 0 100

/-- C1: a validly constructed tree (`max_entries = 4`, `min_entries = 2`)
taken through five public `add_point` calls at the same coordinates.  The
first four leave a consistent tree; the fifth raises `ZeroDivisionError`
inside the overflow split after appending the fifth entry, leaving the
root leaf with 5 > `max_entries` entries and `size = 4` ≠ 5 leaves, so
`assert_consistent` raises. -/
theorem c1_insert_corrupts_invariants :
    initTree 4 (some 2) = .ok tree42 ∧
    samePointRun4.2.2 = none ∧
    assertConsistent samePointRun4.1 samePointRun4.2.1 100 = .ok () ∧
    samePointRun5.2.2 = some .zeroDiv ∧
    samePointRun5.1.size = 4 ∧
    samePointRun5.1.root = some (0, 0) ∧
    ((samePointRun5.2.1.get 0).map List.length) = some 5 ∧
    assertConsistent samePointRun5.1 samePointRun5.2.1 100 = .error .tooMany := by
  decide

/-- `add_point(1, 0, 0)`, `add_point(2, 0, 0)`, `add_point(3, 5, 5)` on a
fresh `CLRTree(4, 2)`: a root leaf with two entries at the origin point
and one elsewhere. -/
def c3Run1 : TreeState × Heap ℕ × Option Err := addPoint tree42 heap0 (some 1) 0 0 100

/-- Second insertion of the C3 scenario. -/
def c3Run2 : TreeState × Heap ℕ × Option Err :=
  addPoint c3Run1.1 c3Run1.2.1 (some 2) 0 0 100

/-- Third insertion of the C3 scenario. -/
def c3Run3 : TreeState × Heap ℕ × Option Err :=
  addPoint c3Run2.1 c3Run2.2.1 (some 3) 5 5 100

/-- `delete_point(0, 0)` on the C3 tree. -/
def c3Delete : TreeState × Heap ℕ × Except Err ℤ :=
  deletePointH c3Run3.1 c3Run3.2.1 0 0 none .EQUAL 100

/-- C3: `get_point(0, 0)` yields two pairs, but `delete_point(0, 0)`
returns 1 and a subsequent identical get still yields one of those pairs.
The delete loop iterates the lazy `_get_node` generator over the root
leaf's list while deleting from it: after `del data[0]` the iterator
(already past index 0) skips the entry that shifted into slot 0. -/
theorem c3_delete_count_law_fails :
    c3Run3.2.2 = none ∧ c3Run3.1.size = 3 ∧
    getPointH c3Run3.1 c3Run3.2.1 0 0 none .EQUAL 100 =
      .ok [(some 1, ⟨0, 0, 0, 0⟩), (some 2, ⟨0, 0, 0, 0⟩)] ∧
    c3Delete.2.2 = .ok 1 ∧
    getPointH c3Delete.1 c3Delete.2.1 0 0 none .EQUAL 100 =
      .ok [(some 2, ⟨0, 0, 0, 0⟩)] ∧
    c3Delete.1.size = 2 := by
  decide

/-- C10: on an empty tree every get yields nothing and every delete
returns 0, without errors and without touching the state. -/
theorem c10_empty_tree_ops (st : TreeState) (heap : Heap ℕ) (x y x2 y2 : ℚ)
    (v : Option ℕ) (m : MatchType) (fuel : ℕ) (hroot : st.root = none) :
    getPointH st heap x y v m fuel = .ok [] ∧
    getBoxH st heap x y x2 y2 v m fuel = .ok [] ∧
    deletePointH st heap x y v m fuel = (st, heap, .ok 0) ∧
    deleteBoxH st heap x y x2 y2 v m fuel = (st, heap, .ok 0) := by
  refine ⟨?_, ?_, ?_, ?_⟩
  · simp [getPointH, hroot]
  · simp [getBoxH, hroot]
  · simp [deletePointH, deleteNormalizedMbr, hroot, deleteLoop, genNext]
  · simp [deleteBoxH, deleteNormalizedMbr, hroot, deleteLoop, genNext]

/-- C10 witness: the empty-tree behaviour at a concrete state. -/
theorem c10_empty_tree_ops_witness :
    deletePointH tree42 heap0 1 2 none .EQUAL 5 = (tree42, heap0, .ok 0) :=
  (c10_empty_tree_ops tree42 heap0 1 2 3 4 none .EQUAL 5 rfl).2.2.1

/-- Seed selection never raises the height-mismatch error. -/
theorem pickLinearSeeds_ne_hm {α β : Type} (rootEntries : List (Mbr × α))
    (data : List (Mbr × β)) : pickLinearSeeds rootEntries data ≠ .error .heightMismatch := by
  unfold pickLinearSeeds
  split
  · simp
  · split
    · simp
    · simp only []
      split
      · simp
      · split
        · simp
        · split
          · simp
          · simp

/-- The split distribution loop never raises the height-mismatch error. -/
theorem splitLoop_ne_hm {α : Type} (minE : ℤ) (height : ℕ) :
    ∀ (rev : List (Mbr × α)) (g0 g1 : Mbr × List (Mbr × α)),
      splitLoop minE height rev g0 g1 ≠ .error .heightMismatch := by
  intro rev
  induction rev with
  | nil => intro g0 g1; simp [splitLoop]
  | cons x rest ih =>
    intro g0 g1
    unfold splitLoop
    split
    · split
      · split
        · simp
        · simp
      · split
        · split
          · simp
          · simp
        · split
          · exact ih _ _
          · exact ih _ _
          · simp
    · split
      · exact ih _ _
      · exact ih _ _
      · simp

/-- `_split` never raises the height-mismatch error. -/
theorem linearSplit_ne_hm {α γ : Type} (minE : ℤ) (rootEntries : List (Mbr × γ))
    (height : ℕ) (data : List (Mbr × α)) :
    linearSplit minE rootEntries height data ≠ .error .heightMismatch := by
  unfold linearSplit
  split
  · rename_i e he
    intro hcon
    injection hcon with h
    subst h
    exact pickLinearSeeds_ne_hm _ _ he
  · split
    · simp only []
      split
      · rename_i he
        intro hcon
        injection hcon with h
        subst h
        exact splitLoop_ne_hm _ _ _ _ _ he
      · simp
    · simp

/-- The heap-level split never raises the height-mismatch error. -/
theorem splitHeap_ne_hm {V : Type} (heap : Heap V) (root : Option (ℕ × ℕ)) (minE : ℤ)
    (height : ℕ) (lid : ℕ) :
    (splitHeap heap root minE height lid).2 ≠ .error .heightMismatch := by
  unfold splitHeap
  split
  · simp
  · split
    · split
      · rename_i he
        intro hcon
        simp only at hcon
        injection hcon with h
        subst h
        exact linearSplit_ne_hm _ _ _ _ he
      · split
        · simp
        · simp
    · simp

/-- `_add_node` never raises the height-mismatch error: the two height
checks live in `_add_normalized_mbr` only. -/
theorem addNode_ne_hm {V : Type} (st : TreeState) :
    ∀ (fuel : ℕ) (heap : Heap V) (r : ℕ × ℕ) (target : ℕ) (c : HContent V) (mbr : Mbr),
      (addNode st fuel heap r target c mbr).2 ≠ .error .heightMismatch := by
  intro fuel
  induction fuel with
  | zero => intro heap r target c mbr; simp [addNode]
  | succ n ih =>
    intro heap r target c mbr
    unfold addNode
    split
    · simp
    · split
      · split
        · simp
        · split
          · simp
          · simp only []
            split
            · simp
            · split
              · rename_i heq
                rw [← heq]
                exact ih _ _ _ _ _
              · exact fun h => Except.noConfusion h
              · split
                · simp
                · split
                  · simp
                  · exact splitHeap_ne_hm _ _ _ _ _
      · simp only []
        split
        · simp
        · exact splitHeap_ne_hm _ _ _ _ _

/-- C8 (amended): internal insertion raises the height-mismatch error
exactly when the target height exceeds the tree height or the tree is
empty with a nonzero target, and in those cases the state is untouched.
(Other failures — the overflow split's `ZeroDivisionError` — can occur
besides, and they do mutate state; see the counterexample.) -/
theorem c8_insertion_height_errors {V : Type} (st : TreeState) (heap : Heap V)
    (target : ℕ) (mbr : Mbr) (c : HContent V) (fuel : ℕ) :
    ((addNormalizedMbr st heap target mbr c fuel).2.2 = some .heightMismatch ↔
      (∃ r, st.root = some r ∧ r.1 < target) ∨ (st.root = none ∧ target ≠ 0)) ∧
    (((∃ r, st.root = some r ∧ r.1 < target) ∨ (st.root = none ∧ target ≠ 0)) →
      addNormalizedMbr st heap target mbr c fuel = (st, heap, some .heightMismatch)) := by
  constructor
  · constructor
    · intro herr
      cases hroot : st.root with
      | some r =>
        simp only [addNormalizedMbr, hroot] at herr
        by_cases hlt : target > r.1
        · exact Or.inl ⟨r, rfl, hlt⟩
        · rw [if_neg hlt] at herr
          exfalso
          revert herr
          split
          · rename_i heq
            intro herr
            simp only at herr
            injection herr with h
            have := addNode_ne_hm st fuel heap r target c mbr
            rw [heq] at this
            exact this (by rw [h])
          · simp
          · split
            · simp
            · simp
      | none =>
        simp only [addNormalizedMbr, hroot] at herr
        by_cases ht : target ≠ 0
        · exact Or.inr ⟨rfl, ht⟩
        · rw [if_neg ht] at herr
          simp at herr
    · intro hcond
      rcases hcond with ⟨r, hr, hlt⟩ | ⟨hr, ht⟩
      · simp only [addNormalizedMbr, hr]
        rw [if_pos hlt]
      · simp only [addNormalizedMbr, hr]
        rw [if_pos ht]
  · intro hcond
    rcases hcond with ⟨r, hr, hlt⟩ | ⟨hr, ht⟩
    · simp only [addNormalizedMbr, hr]
      rw [if_pos hlt]
    · simp only [addNormalizedMbr, hr]
      rw [if_pos ht]

/-- C8 witness: inserting at height 1 into an empty tree fails with the
height-mismatch error and leaves the state unchanged. -/
theorem c8_insertion_height_errors_witness :
    addNormalizedMbr tree42 heap0 1 ⟨0, 0, 0, 0⟩ (.val none) 10 =
      (tree42, heap0, some .heightMismatch) :=
  (c8_insertion_height_errors tree42 heap0 1 ⟨0, 0, 0, 0⟩ (.val none) 10).2
    (Or.inr ⟨rfl, by decide⟩)

/-- The failed insertion of the C8 counterexample: a fifth entry at the
same point, at a legal target height, on a nonempty tree. -/
def c8Attempt : TreeState × Heap ℕ × Option Err :=
  addNormalizedMbr samePointRun4.1 samePointRun4.2.1 0 ⟨0, 0, 0, 0⟩ (.val (some 5)) 100

/-- C8 counterexample: with the tree of four identical points (height 0,
nonempty) and target height 0, neither error condition of the claim
holds, yet the insertion raises (`ZeroDivisionError` from the overflow
split) and the heap is left mutated — the claimed "error iff" and the
claimed state preservation both fail. -/
theorem c8_counterexample :
    samePointRun4.1.root = some (0, 0) ∧
    c8Attempt.2.2 = some .zeroDiv ∧
    c8Attempt.2.2 ≠ none ∧
    c8Attempt.2.2 ≠ some .heightMismatch ∧
    c8Attempt.2.1 ≠ samePointRun4.2.1 := by
  decide

/-- Comparison definition following the spec's words for C9 ("no leaf
entry is excluded by the value filter"): the leaf scan of `_get_node`
with the value check removed. -/
def getLeafNoValueFilter (q : Mbr) (m : MatchType) :
    List (Mbr × Option V) → List (Option V × Mbr)
  | [] => []
  | (bN, w) :: rest =>
      (if leafTest m q bN then [(w, bN)] else []) ++ getLeafNoValueFilter q m rest

mutual
/-- Comparison definition for C9: `_get_node` with the value filter
removed. -/
def getNodeNoValueFilter : PNode V → Mbr → MatchType → List (Option V × Mbr)
  | .leaf entries, q, m => getLeafNoValueFilter q m entries
  | .node _ es, q, m => getNodeEntriesNoValueFilter es q m
/-- `getNodeNoValueFilter` over an internal entry list. -/
def getNodeEntriesNoValueFilter : PEntries V → Mbr → MatchType → List (Option V × Mbr)
  | .nil, _, _ => []
  | .cons b c rest, q, m =>
      (if pruneTest m b q then getNodeNoValueFilter c q m else []) ++
        getNodeEntriesNoValueFilter rest q m
end

/-- With `value = None`, the leaf scan excludes nothing. -/
theorem getLeaf_none_filter [DecidableEq V] (q : Mbr) (m : MatchType) :
    ∀ entries : List (Mbr × Option V),
      getLeaf q (none : Option V) m entries = getLeafNoValueFilter q m entries := by
  intro entries
  induction entries with
  | nil => rfl
  | cons x rest ih =>
    obtain ⟨bN, w⟩ := x
    simp only [getLeaf, getLeafNoValueFilter, ih]
    rfl

mutual
/-- With `value = None`, `_get_node` excludes nothing by value. -/
theorem getNode_none_filter [DecidableEq V] : ∀ (n : PNode V) (q : Mbr) (m : MatchType),
    getNode n q (none : Option V) m = getNodeNoValueFilter n q m
  | .leaf entries, q, m => by
      simp only [getNode, getNodeNoValueFilter]
      exact getLeaf_none_filter q m entries
  | .node h es, q, m => by
      simp only [getNode, getNodeNoValueFilter]
      exact getNodeEntries_none_filter es q m
/-- `getNode_none_filter` over an internal entry list. -/
theorem getNodeEntries_none_filter [DecidableEq V] :
    ∀ (es : PEntries V) (q : Mbr) (m : MatchType),
      getNodeEntries es q (none : Option V) m = getNodeEntriesNoValueFilter es q m
  | .nil, _, _ => rfl
  | .cons b c rest, q, m => by
      simp only [getNodeEntries, getNodeEntriesNoValueFilter]
      rw [getNode_none_filter c q m, getNodeEntries_none_filter rest q m]
end

/-- Comparison definition for C9 on the delete path: the suspended
`_get_node` generator of `_delete_normalized_mbr` with the value filter
removed. -/
def genNextNoValueFilter (q : Mbr) (m : MatchType) :
    ℕ → Heap V → List Frame → Except Err (Option ((Option V × Mbr) × List Frame))
  | _, _, [] => .ok none
  | 0, _, _ :: _ => .error .fuel
  | fuel + 1, heap, fr :: rest =>
    match heap.get fr.lid with
    | none => .error .stuck
    | some data =>
      match data.get? fr.idx with
      | none => genNextNoValueFilter q m fuel heap rest
      | some (bN, c) =>
        let fr1 : Frame := ⟨fr.h, fr.lid, fr.idx + 1⟩
        if fr.h ≠ 0 then
          match c with
          | .ref ch cl =>
            if pruneTest m bN q then
              genNextNoValueFilter q m fuel heap (⟨ch, cl, 0⟩ :: fr1 :: rest)
            else genNextNoValueFilter q m fuel heap (fr1 :: rest)
          | .val _ => .error .stuck
        else
          match c with
          | .val w =>
            if leafTest m q bN then .ok (some ((w, bN), fr1 :: rest))
            else genNextNoValueFilter q m fuel heap (fr1 :: rest)
          | .ref _ _ => .error .stuck

/-- Comparison definition for C9 on the delete path: `_delete_node` with
the leaf value filter removed. -/
def deleteNodeNoValueFilter (minE : ℤ) (target : Mbr) :
    ℕ → Heap V → ℕ × ℕ → ℕ →
    Heap V × Except Err (Option (Bool × List (ℕ × Mbr × HContent V)))
  | 0, heap, _, _ => (heap, .error .fuel)
  | fuel + 1, heap, r, i =>
    match heap.get r.2 with
    | none => (heap, .error .stuck)
    | some data =>
      match data.get? i with
      | none => (heap, .ok none)
      | some (bN, c) =>
        if r.1 ≠ 0 then
          if containsMbr bN target then
            match c with
            | .val _ => (heap, .error .stuck)
            | .ref ch cl =>
              match deleteNodeNoValueFilter minE target fuel heap (ch, cl) 0 with
              | (heap1, .error e) => (heap1, .error e)
              | (heap1, .ok none) => deleteNodeNoValueFilter minE target fuel heap1 r (i + 1)
              | (heap1, .ok (some (del, inserts))) =>
                match heap1.get r.2 with
                | none => (heap1, .error .stuck)
                | some data1 =>
                  if del then
                    let data2 := data1.eraseIdx i
                    let heap2 := heap1.set r.2 data2
                    if (data2.length : ℤ) < minE then
                      (heap2, .ok (some (true, inserts ++ data2.map fun e => (r.1, e.1, e.2))))
                    else (heap2, .ok (some (false, inserts)))
                  else
                    match data1.get? i with
                    | none => (heap1, .error .stuck)
                    | some (_, .val _) => (heap1, .error .stuck)
                    | some (_, .ref hch lch) =>
                      match heap1.get lch with
                      | none => (heap1, .error .stuck)
                      | some children =>
                        match calculateMbr children with
                        | none => (heap1, .error .stuck)
                        | some newMbr =>
                          (heap1.set r.2 (data1.set i (newMbr, .ref hch lch)),
                            .ok (some (false, inserts)))
          else deleteNodeNoValueFilter minE target fuel heap r (i + 1)
        else
          if bN == target then
            let data2 := data.eraseIdx i
            let heap2 := heap.set r.2 data2
            if (data2.length : ℤ) < minE then
              (heap2, .ok (some (true, data2.map fun e => ((0 : ℕ), e.1, e.2))))
            else (heap2, .ok (some (false, [])))
          else deleteNodeNoValueFilter minE target fuel heap r (i + 1)

/-- Comparison definition for C9 on the delete path: the
`_delete_normalized_mbr` loop with the value filters of its generator
and of `_delete_node` removed. -/
def deleteLoopNoValueFilter (q : Mbr) (m : MatchType) :
    ℕ → TreeState → Heap V → List Frame → ℤ → TreeState × Heap V × Except Err ℤ
  | fuel, st, heap, gen, count =>
    match genNextNoValueFilter q m fuel heap gen with
    | .error e => (st, heap, .error e)
    | .ok none => (st, heap, .ok count)
    | .ok (some ((_, mbrMatch), gen1)) =>
      match fuel with
      | 0 => (st, heap, .error .fuel)
      | fuel + 1 =>
        match st.root with
        | none => (st, heap, .error .stuck)
        | some r =>
          match deleteNodeNoValueFilter st.minE mbrMatch fuel heap r 0 with
          | (heap1, .error e) => (st, heap1, .error e)
          | (heap1, .ok none) => (st, heap1, .error .failedDelete)
          | (heap1, .ok (some (del, inserts))) =>
            let st1 := if del then {st with root := none} else st
            match reinsert fuel st1 heap1 inserts with
            | (st2, heap2, some e) => (st2, heap2, .error e)
            | (st2, heap2, none) =>
              let st3 := {st2 with size := st2.size - 1}
              match collapseRoot st3 heap2 with
              | .error e => (st3, heap2, .error e)
              | .ok st4 => deleteLoopNoValueFilter q m fuel st4 heap2 gen1 (count + 1)

/-- With `value = None`, the delete-path generator excludes nothing by
value. -/
theorem genNext_none_filter [DecidableEq V] (q : Mbr) (m : MatchType) :
    ∀ (fuel : ℕ) (heap : Heap V) (stack : List Frame),
      genNext q (none : Option V) m fuel heap stack =
        genNextNoValueFilter q m fuel heap stack := by
  intro fuel
  induction fuel with
  | zero =>
    intro heap stack
    cases stack <;> rfl
  | succ n ih =>
    intro heap stack
    cases stack with
    | nil => rfl
    | cons fr rest =>
      simp only [genNext, genNextNoValueFilter]
      split
      · rfl
      · split
        · exact ih _ _
        · split
          · split
            · split
              · exact ih _ _
              · exact ih _ _
            · rfl
          · split
            · simp only [show ((none : Option V) == none) = true from rfl,
                Bool.true_or, Bool.true_and]
              split
              · rfl
              · exact ih _ _
            · rfl

/-- With `value = None`, `_delete_node` excludes nothing by value. -/
theorem deleteNode_none_filter [DecidableEq V] (minE : ℤ) (target : Mbr) :
    ∀ (fuel : ℕ) (heap : Heap V) (r : ℕ × ℕ) (i : ℕ),
      deleteNode minE target (none : Option V) fuel heap r i =
        deleteNodeNoValueFilter minE target fuel heap r i := by
  intro fuel
  induction fuel with
  | zero => intro heap r i; rfl
  | succ n ih =>
    intro heap r i
    simp only [deleteNode, deleteNodeNoValueFilter]
    split
    · rfl
    · split
      · rfl
      · split
        · split
          · split
            · rfl
            · rw [ih]
              split
              · rfl
              · exact ih _ _ _
              · rfl
          · exact ih _ _ _
        · simp only [show ((none : Option V) == none) = true from rfl,
            Bool.true_or, Bool.and_true]
          split
          · rfl
          · exact ih _ _ _

/-- With `value = None`, the `_delete_normalized_mbr` loop equals the
filter-free loop on every state, heap and generator stack. -/
theorem deleteLoop_none_filter [DecidableEq V] (q : Mbr) (m : MatchType) :
    ∀ (fuel : ℕ) (st : TreeState) (heap : Heap V) (gen : List Frame) (count : ℤ),
      deleteLoop q (none : Option V) m fuel st heap gen count =
        deleteLoopNoValueFilter q m fuel st heap gen count := by
  intro fuel
  induction fuel with
  | zero =>
    intro st heap gen count
    cases gen <;> rfl
  | succ n ih =>
    intro st heap gen count
    rw [deleteLoop.eq_1, deleteLoopNoValueFilter.eq_1, genNext_none_filter]
    split
    · rfl
    · rfl
    · simp only []
      split
      · rfl
      · rw [deleteNode_none_filter]
        split
        · rfl
        · rfl
        · split
          · rfl
          · split
            · rfl
            · exact ih _ _ _ _

/-- C9: passing `value=None` acts as "match any value" on the query path
and on the delete path alike — the pure query, the suspended query
generator, `_delete_node`, and the whole delete loop each equal their
filter-free counterparts on every tree — and in particular an entry
whose stored value is `None` is yielded together with all
differently-valued entries, not selected exclusively. -/
theorem c9_value_none_matches_all :
    (∀ (n : PNode ℕ) (q : Mbr) (m : MatchType),
      getNode n q (none : Option ℕ) m = getNodeNoValueFilter n q m) ∧
    (∀ (q : Mbr) (m : MatchType) (fuel : ℕ) (heap : Heap ℕ) (stack : List Frame),
      genNext q (none : Option ℕ) m fuel heap stack =
        genNextNoValueFilter q m fuel heap stack) ∧
    (∀ (minE : ℤ) (target : Mbr) (fuel : ℕ) (heap : Heap ℕ) (r : ℕ × ℕ) (i : ℕ),
      deleteNode minE target (none : Option ℕ) fuel heap r i =
        deleteNodeNoValueFilter minE target fuel heap r i) ∧
    (∀ (q : Mbr) (m : MatchType) (fuel : ℕ) (st : TreeState) (heap : Heap ℕ)
        (gen : List Frame) (count : ℤ),
      deleteLoop q (none : Option ℕ) m fuel st heap gen count =
        deleteLoopNoValueFilter q m fuel st heap gen count) ∧
    getNode (PNode.leaf [(⟨0, 0, 0, 0⟩, none), (⟨0, 0, 0, 0⟩, some 5)])
        ⟨0, 0, 0, 0⟩ (none : Option ℕ) .EQUAL =
      [(none, ⟨0, 0, 0, 0⟩), (some 5, ⟨0, 0, 0, 0⟩)] :=
  ⟨fun n q m => getNode_none_filter n q m,
   fun q m fuel heap stack => genNext_none_filter q m fuel heap stack,
   fun minE target fuel heap r i => deleteNode_none_filter minE target fuel heap r i,
   fun q m fuel st heap gen count => deleteLoop_none_filter q m fuel st heap gen count,
   by decide⟩

/-- Containment is transitive. -/
theorem containsMbr_trans (a b c : Mbr) (h1 : containsMbr a b = true)
    (h2 : containsMbr b c = true) : containsMbr a c = true := by
  simp only [containsMbr, Bool.and_eq_true, decide_eq_true_eq] at h1 h2 ⊢
  obtain ⟨⟨⟨p1, p2⟩, p3⟩, p4⟩ := h1
  obtain ⟨⟨⟨q1, q2⟩, q3⟩, q4⟩ := h2
  exact ⟨⟨⟨le_trans p1 q1, le_trans q2 p2⟩, le_trans p3 q3⟩, le_trans q4 p4⟩

/-- The merge contains its first argument. -/
theorem merge_contains_left (a b : Mbr) : containsMbr (mergeMbr a b) a = true := by
  simp [containsMbr, mergeMbr, min_le_left, le_max_left]

/-- The merge contains its second argument. -/
theorem merge_contains_right (a b : Mbr) : containsMbr (mergeMbr a b) b = true := by
  simp [containsMbr, mergeMbr, min_le_right, le_max_right]

/-- The running merge contains the accumulator. -/
theorem calculateMbrGo_contains_acc {α : Type} :
    ∀ (l : List (Mbr × α)) (acc : Mbr), containsMbr (calculateMbrGo acc l) acc = true := by
  intro l
  induction l with
  | nil => intro acc; simp [calculateMbrGo, containsMbr]
  | cons x rest ih =>
    intro acc
    obtain ⟨m, y⟩ := x
    simp only [calculateMbrGo]
    exact containsMbr_trans _ _ _ (ih (mergeMbr acc m)) (merge_contains_left acc m)

/-- The running merge contains every member box. -/
theorem calculateMbrGo_contains_mem {α : Type} :
    ∀ (l : List (Mbr × α)) (acc : Mbr) (e : Mbr × α),
      e ∈ l → containsMbr (calculateMbrGo acc l) e.1 = true := by
  intro l
  induction l with
  | nil => intro acc e he; simp at he
  | cons x rest ih =>
    intro acc e he
    obtain ⟨m, y⟩ := x
    simp only [calculateMbrGo]
    rcases List.mem_cons.mp he with he | he
    · subst he
      exact containsMbr_trans _ _ _ (calculateMbrGo_contains_acc rest (mergeMbr acc m))
        (merge_contains_right acc m)
    · exact ih (mergeMbr acc m) e he

/-- `_calculate_mbr` contains every member box. -/
theorem calculateMbr_contains_mem {α : Type} (l : List (Mbr × α)) (g : Mbr) (e : Mbr × α)
    (he : e ∈ l) (hg : calculateMbr l = some g) : containsMbr g e.1 = true := by
  cases l with
  | nil => simp at he
  | cons x rest =>
    obtain ⟨m, y⟩ := x
    simp only [calculateMbr, Option.some.injEq] at hg
    subst hg
    rcases List.mem_cons.mp he with he | he
    · subst he
      exact calculateMbrGo_contains_acc rest m
    · exact calculateMbrGo_contains_mem rest m e he

mutual
/-- A tight entry's recorded box contains every leaf box below it. -/
theorem tight_node_covers {V : Type} : ∀ (c : PNode V) (b : Mbr),
    entryMbrOk b c = true → tightP c = true →
    ∀ e, e ∈ leavesP c → containsMbr b e.1 = true
  | .leaf entries, b, hok, _, e, he => by
      simp only [entryMbrOk, beq_iff_eq] at hok
      simp only [leavesP] at he
      exact calculateMbr_contains_mem entries b e he hok.symm
  | .node hh es, b, hok, ht, e, he => by
      simp only [entryMbrOk, beq_iff_eq] at hok
      simp only [tightP] at ht
      simp only [leavesP] at he
      exact tight_entries_covers es b
        (fun p hp => calculateMbr_contains_mem _ b p hp hok.symm) ht e he
/-- `tight_node_covers` over an internal entry list whose recorded boxes
are all inside `g`. -/
theorem tight_entries_covers {V : Type} : ∀ (es : PEntries V) (g : Mbr),
    (∀ p, p ∈ entriesAsPairs es → containsMbr g p.1 = true) →
    tightEntries es = true → ∀ e, e ∈ leavesEntries es → containsMbr g e.1 = true
  | .nil, _, _, _, e, he => by simp [leavesEntries] at he
  | .cons b c rest, g, hcont, ht, e, he => by
      simp only [tightEntries, Bool.and_eq_true] at ht
      obtain ⟨⟨hok, htc⟩, htr⟩ := ht
      simp only [leavesEntries, List.mem_append] at he
      rcases he with he | he
      · exact containsMbr_trans _ _ _
          (hcont (b, ()) (by simp [entriesAsPairs])) (tight_node_covers c b hok htc e he)
      · exact tight_entries_covers rest g
          (fun p hp => hcont p (by simp [entriesAsPairs, hp])) htr e he
end

mutual
/-- Every leaf box of a canonical tree is canonical. -/
theorem canon_node_leaves {V : Type} : ∀ (c : PNode V), canonP c = true →
    ∀ e, e ∈ leavesP c → canonM e.1 = true
  | .leaf entries, hc, e, he => by
      simp only [canonP, List.all_eq_true] at hc
      simp only [leavesP] at he
      exact hc e he
  | .node hh es, hc, e, he => by
      simp only [canonP] at hc
      simp only [leavesP] at he
      exact canon_entries_leaves es hc e he
/-- `canon_node_leaves` over an internal entry list. -/
theorem canon_entries_leaves {V : Type} : ∀ (es : PEntries V), canonEntries es = true →
    ∀ e, e ∈ leavesEntries es → canonM e.1 = true
  | .nil, _, e, he => by simp [leavesEntries] at he
  | .cons b c rest, hc, e, he => by
      simp only [canonEntries, Bool.and_eq_true] at hc
      obtain ⟨hcc, hcr⟩ := hc
      simp only [leavesEntries, List.mem_append] at he
      rcases he with he | he
      · exact canon_node_leaves c hcc e he
      · exact canon_entries_leaves rest hcr e he
end

/-- The leaf test at `EQUAL` is box equality. -/
theorem leafTest_EQUAL (q b : Mbr) : leafTest .EQUAL q b = (q == b) := by
  simp only [leafTest]
  cases hA : (q == b) <;> cases hB : containsMbr b q <;> cases hC : containsMbr q b <;>
    cases hD : intersectMbr q b <;> rfl

/-- The leaf test at `CONTAINED` is `contains(stored, query)`. -/
theorem leafTest_CONTAINED (q b : Mbr) : leafTest .CONTAINED q b = containsMbr b q := by
  simp only [leafTest]
  cases hA : (q == b) <;> cases hB : containsMbr b q <;> cases hC : containsMbr q b <;>
    cases hD : intersectMbr q b <;> rfl

/-- The leaf test at `CONTAINS` is `contains(query, stored)`. -/
theorem leafTest_CONTAINS (q b : Mbr) : leafTest .CONTAINS q b = containsMbr q b := by
  simp only [leafTest]
  cases hA : (q == b) <;> cases hB : containsMbr b q <;> cases hC : containsMbr q b <;>
    cases hD : intersectMbr q b <;> rfl

/-- The leaf test at `INTERSECT` is `intersect(query, stored)`. -/
theorem leafTest_INTERSECT (q b : Mbr) : leafTest .INTERSECT q b = intersectMbr q b := by
  simp only [leafTest]
  cases hA : (q == b) <;> cases hB : containsMbr b q <;> cases hC : containsMbr q b <;>
    cases hD : intersectMbr q b <;> rfl

/-- The pruning test at `EQUAL` is `contains(subtree, query)`. -/
theorem pruneTest_EQUAL (b q : Mbr) : pruneTest .EQUAL b q = containsMbr b q := by
  simp only [pruneTest]
  cases hB : containsMbr b q <;> cases hD : intersectMbr b q <;> rfl

/-- The pruning test at `CONTAINED` is `contains(subtree, query)`. -/
theorem pruneTest_CONTAINED (b q : Mbr) : pruneTest .CONTAINED b q = containsMbr b q := by
  simp only [pruneTest]
  cases hB : containsMbr b q <;> cases hD : intersectMbr b q <;> rfl

/-- The pruning test at `CONTAINS` is `intersect(subtree, query)`. -/
theorem pruneTest_CONTAINS (b q : Mbr) : pruneTest .CONTAINS b q = intersectMbr b q := by
  simp only [pruneTest]
  cases hB : containsMbr b q <;> cases hD : intersectMbr b q <;> rfl

/-- The pruning test at `INTERSECT` is `intersect(subtree, query)`. -/
theorem pruneTest_INTERSECT (b q : Mbr) : pruneTest .INTERSECT b q = intersectMbr b q := by
  simp only [pruneTest]
  cases hB : containsMbr b q <;> cases hD : intersectMbr b q <;> rfl

/-- The pruning test is a necessary condition for the leaf test: a leaf
box passing the match test inside a subtree whose recorded box contains
it forces the pruning test on the recorded box. -/
theorem prune_of_leafTest (m : MatchType) (q sub b : Mbr)
    (hl : leafTest m q b = true) (hc : containsMbr sub b = true)
    (hcanon : canonM b = true) : pruneTest m sub q = true := by
  cases m with
  | EQUAL =>
    rw [leafTest_EQUAL] at hl
    rw [pruneTest_EQUAL]
    have hqb : q = b := by simpa using hl
    subst hqb
    exact hc
  | CONTAINED =>
    rw [leafTest_CONTAINED] at hl
    rw [pruneTest_CONTAINED]
    exact containsMbr_trans sub b q hc hl
  | CONTAINS =>
    rw [leafTest_CONTAINS] at hl
    rw [pruneTest_CONTAINS]
    simp only [containsMbr, intersectMbr, canonM, Bool.and_eq_true, decide_eq_true_eq]
      at hl hc hcanon ⊢
    obtain ⟨⟨⟨a1, a2⟩, a3⟩, a4⟩ := hl
    obtain ⟨⟨⟨b1, b2⟩, b3⟩, b4⟩ := hc
    obtain ⟨c1, c2⟩ := hcanon
    exact ⟨⟨⟨by linarith, by linarith⟩, by linarith⟩, by linarith⟩
  | INTERSECT =>
    rw [leafTest_INTERSECT] at hl
    rw [pruneTest_INTERSECT]
    simp only [containsMbr, intersectMbr, Bool.and_eq_true, decide_eq_true_eq] at hl hc ⊢
    obtain ⟨⟨⟨a1, a2⟩, a3⟩, a4⟩ := hl
    obtain ⟨⟨⟨b1, b2⟩, b3⟩, b4⟩ := hc
    exact ⟨⟨⟨by linarith, by linarith⟩, by linarith⟩, by linarith⟩

/-- The leaf scan is the filter of the claim over the leaf entries. -/
theorem getLeaf_eq_filterMap [DecidableEq V] (q : Mbr) (v : Option V) (m : MatchType) :
    ∀ entries : List (Mbr × Option V),
      getLeaf q v m entries = entries.filterMap fun e =>
        if (v == none || v == e.2) && leafTest m q e.1 then some (e.2, e.1) else none := by
  intro entries
  induction entries with
  | nil => rfl
  | cons x rest ih =>
    obtain ⟨bN, w⟩ := x
    simp only [getLeaf, List.filterMap_cons, ih]
    by_cases hcond : ((v == none || v == w) && leafTest m q bN) = true
    · rw [if_pos hcond, if_pos hcond]
      rfl
    · rw [if_neg hcond, if_neg hcond]
      rfl

mutual
/-- C4 core: on a tight, canonical tree, `_get_node` yields exactly the
leaf entries passing the value filter and the leaf match test. -/
theorem getNode_eq_matches {V : Type} [DecidableEq V] :
    ∀ (n : PNode V) (q : Mbr) (v : Option V) (m : MatchType),
      tightP n = true → canonP n = true → getNode n q v m = leafMatches n q v m
  | .leaf entries, q, v, m, _, _ => by
      simp only [getNode, leafMatches, leavesP]
      exact getLeaf_eq_filterMap q v m entries
  | .node h es, q, v, m, ht, hc => by
      simp only [getNode, leafMatches, leavesP]
      simp only [tightP] at ht
      simp only [canonP] at hc
      exact getNodeEntries_eq_matches es q v m ht hc
/-- `getNode_eq_matches` over an internal entry list. -/
theorem getNodeEntries_eq_matches {V : Type} [DecidableEq V] :
    ∀ (es : PEntries V) (q : Mbr) (v : Option V) (m : MatchType),
      tightEntries es = true → canonEntries es = true →
      getNodeEntries es q v m = (leavesEntries es).filterMap fun e =>
        if (v == none || v == e.2) && leafTest m q e.1 then some (e.2, e.1) else none
  | .nil, _, _, _, _, _ => rfl
  | .cons b c rest, q, v, m, ht, hc => by
      simp only [tightEntries, Bool.and_eq_true] at ht
      obtain ⟨⟨hok, htc⟩, htr⟩ := ht
      simp only [canonEntries, Bool.and_eq_true] at hc
      obtain ⟨hcc, hcr⟩ := hc
      simp only [getNodeEntries, leavesEntries, List.filterMap_append]
      rw [getNodeEntries_eq_matches rest q v m htr hcr]
      congr 1
      by_cases hp : pruneTest m b q = true
      · rw [if_pos hp]
        rw [getNode_eq_matches c q v m htc hcc]
        rfl
      · rw [if_neg hp]
        symm
        rw [List.filterMap_eq_nil_iff]
        intro e he
        have hnone : ¬ (((v == none || v == e.2) && leafTest m q e.1) = true) := by
          intro hcond
          rw [Bool.and_eq_true] at hcond
          exact hp (prune_of_leafTest m q b e.1 hcond.2
            (tight_node_covers c b hok htc e he) (canon_node_leaves c hcc e he))
        rw [if_neg hnone]
end

/-- C4: on a consistent tree (tight recorded boxes, canonical leaf
boxes), a query yields exactly the leaf entries passing the match test of
its match type, restricted to the value filter when one is supplied; and
the leaf and pruning tests are exactly those of the claim's table. -/
theorem c4_query_semantics (n : PNode ℕ) (q : Mbr) (v : Option ℕ) (m : MatchType)
    (ht : tightP n = true) (hc : canonP n = true) :
    getNode n q v m = leafMatches n q v m ∧
    (∀ b : Mbr, pruneTest .EQUAL b q = containsMbr b q) ∧
    (∀ b : Mbr, pruneTest .CONTAINED b q = containsMbr b q) ∧
    (∀ b : Mbr, pruneTest .CONTAINS b q = intersectMbr b q) ∧
    (∀ b : Mbr, pruneTest .INTERSECT b q = intersectMbr b q) ∧
    (∀ b : Mbr, leafTest .EQUAL q b = (q == b)) ∧
    (∀ b : Mbr, leafTest .CONTAINED q b = containsMbr b q) ∧
    (∀ b : Mbr, leafTest .CONTAINS q b = containsMbr q b) ∧
    (∀ b : Mbr, leafTest .INTERSECT q b = intersectMbr q b) :=
  ⟨getNode_eq_matches n q v m ht hc,
    fun b => pruneTest_EQUAL b q, fun b => pruneTest_CONTAINED b q,
    fun b => pruneTest_CONTAINS b q, fun b => pruneTest_INTERSECT b q,
    fun b => leafTest_EQUAL q b, fun b => leafTest_CONTAINED q b,
    fun b => leafTest_CONTAINS q b, fun b => leafTest_INTERSECT q b⟩

/-- A small consistent tree of height 1 with two leaves. -/
def c4Tree : PNode ℕ :=
  .node 1 (.cons ⟨0, 0, 1, 1⟩ (.leaf [(⟨0, 0, 0, 0⟩, some 1), (⟨1, 1, 1, 1⟩, some 2)])
    (.cons ⟨5, 5, 6, 6⟩ (.leaf [(⟨5, 5, 5, 5⟩, some 3), (⟨6, 6, 6, 6⟩, some 4)]) .nil))

/-- C4 witness: the exactness equation at a concrete consistent tree. -/
theorem c4_query_semantics_witness :
    getNode c4Tree ⟨0, 0, 5, 5⟩ none .CONTAINS = leafMatches c4Tree ⟨0, 0, 5, 5⟩ none .CONTAINS :=
  (c4_query_semantics c4Tree ⟨0, 0, 5, 5⟩ none .CONTAINS (by decide) (by decide)).1

/-- Appending one entry merges its box into the running MBR. -/
theorem calculateMbrGo_append {α : Type} :
    ∀ (l : List (Mbr × α)) (acc : Mbr) (e : Mbr × α),
      calculateMbrGo acc (l ++ [e]) = mergeMbr (calculateMbrGo acc l) e.1 := by
  intro l
  induction l with
  | nil => intro acc e; rfl
  | cons x rest ih =>
    intro acc e
    obtain ⟨m, y⟩ := x
    simp only [List.cons_append, calculateMbrGo]
    exact ih (mergeMbr acc m) e

/-- `_calculate_mbr` after appending one entry. -/
theorem calculateMbr_append_single {α : Type} (l : List (Mbr × α)) (b : Mbr) (e : Mbr × α)
    (hb : calculateMbr l = some b) :
    calculateMbr (l ++ [e]) = some (mergeMbr b e.1) := by
  cases l with
  | nil => simp [calculateMbr] at hb
  | cons x rest =>
    obtain ⟨m, y⟩ := x
    simp only [calculateMbr, Option.some.injEq] at hb
    simp only [List.cons_append, calculateMbr, Option.some.injEq]
    rw [calculateMbrGo_append rest m e, hb]

/-- A nonempty entry list has an MBR. -/
theorem calculateMbr_isSome {α : Type} (l : List (Mbr × α)) (h : l ≠ []) :
    ∃ b, calculateMbr l = some b := by
  cases l with
  | nil => exact absurd rfl h
  | cons x rest => exact ⟨_, rfl⟩

/-- `_best` over a two-candidate list picks one of them with the merged
box. -/
theorem best_two {α : Type} (b0 b1 q : Mbr) (x0 x1 : α) (h : ℕ) :
    best [(b0, x0), (b1, x1)] q h = some (0, mergeMbr b0 q) ∨
    best [(b0, x0), (b1, x1)] q h = some (1, mergeMbr b1 q) := by
  simp only [best, bestGo]
  split
  · right; rfl
  · left; rfl

/-- Permutation juggling: moving the popped entry from the head of the
remaining list into a group. -/
theorem perm_pop_left {α : Type} (g0 g1 rest : List α) (x : α) :
    (((g0 ++ [x]) ++ g1) ++ rest).Perm ((g0 ++ g1) ++ (x :: rest)) := by
  have h1 : ((g0 ++ [x]) ++ g1) ++ rest = g0 ++ (x :: (g1 ++ rest)) := by
    simp [List.append_assoc]
  have h2 : (g0 ++ g1) ++ (x :: rest) = g0 ++ (g1 ++ (x :: rest)) := by
    simp [List.append_assoc]
  rw [h1, h2]
  exact List.Perm.append_left g0 List.perm_middle.symm

/-- The main specification of the `_split` distribution loop: given both
groups seeded and the running invariant `|group| + |remaining| ≥ min`,
the loop succeeds and returns two groups of size at least `min` that
partition the entries exactly, each with its tight box. -/
theorem splitLoop_spec {α : Type} (minE : ℤ) (height : ℕ) :
    ∀ (rev : List (Mbr × α)) (b0 : Mbr) (g0 : List (Mbr × α)) (b1 : Mbr)
      (g1 : List (Mbr × α)),
      calculateMbr g0 = some b0 → calculateMbr g1 = some b1 →
      g0 ≠ [] → g1 ≠ [] →
      minE ≤ (g0.length : ℤ) + rev.length →
      minE ≤ (g1.length : ℤ) + rev.length →
      2 * minE ≤ (g0.length : ℤ) + g1.length + rev.length →
      ∃ c0 f0 c1 f1 left,
        splitLoop minE height rev (b0, g0) (b1, g1) = .ok ((c0, f0), (c1, f1), left) ∧
        minE ≤ (f0.length : ℤ) ∧ minE ≤ (f1.length : ℤ) ∧
        (f0.length : ℤ) + f1.length = (g0.length : ℤ) + g1.length + rev.length ∧
        (f0 ++ f1).Perm ((g0 ++ g1) ++ rev) ∧
        calculateMbr f0 = some c0 ∧ calculateMbr f1 = some c1 := by
  intro rev
  induction rev with
  | nil =>
    intro b0 g0 b1 g1 hb0 hb1 hne0 hne1 hI0 hI1 hT
    refine ⟨b0, g0, b1, g1, [], rfl, ?_, ?_, ?_, ?_, hb0, hb1⟩
    · simpa using hI0
    · simpa using hI1
    · simp
    · simp
  | cons x rest ih =>
    intro b0 g0 b1 g1 hb0 hb1 hne0 hne1 hI0 hI1 hT
    have hg0pos : 1 ≤ (g0.length : ℤ) := by
      have := List.length_pos.mpr hne0
      omega
    have hg1pos : 1 ≤ (g1.length : ℤ) := by
      have := List.length_pos.mpr hne1
      omega
    by_cases hlen : (((x :: rest).length : ℤ)) < minE
    · by_cases hd0 : (g0.length : ℤ) + ((x :: rest).length : ℤ) = minE
      · obtain ⟨c0, hc0⟩ := calculateMbr_isSome (g0 ++ (x :: rest).reverse)
          (by simp)
        refine ⟨c0, g0 ++ (x :: rest).reverse, b1, g1, x :: rest, ?_, ?_, ?_, ?_, ?_,
          hc0, hb1⟩
        · simp only [splitLoop]
          rw [if_pos hlen, if_pos hd0]
          simp only [hc0]
        · simp only [List.length_append, List.length_reverse]
          push_cast
          omega
        · simp only [List.length_cons] at hlen hd0 hT
          omega
        · simp only [List.length_append, List.length_reverse]
          push_cast
          omega
        · have h1 : (g0 ++ (x :: rest).reverse) ++ g1 =
              g0 ++ ((x :: rest).reverse ++ g1) := by simp [List.append_assoc]
          have h2 : ((x :: rest).reverse ++ g1).Perm (g1 ++ (x :: rest)) :=
            ((List.reverse_perm _).append_right g1).trans List.perm_append_comm
          have h3 : (g0 ++ g1) ++ (x :: rest) = g0 ++ (g1 ++ (x :: rest)) := by
            simp [List.append_assoc]
          rw [h1, h3]
          exact List.Perm.append_left g0 h2
      · by_cases hd1 : (g1.length : ℤ) + ((x :: rest).length : ℤ) = minE
        · obtain ⟨c1, hc1⟩ := calculateMbr_isSome (g1 ++ (x :: rest).reverse)
            (by simp)
          refine ⟨b0, g0, c1, g1 ++ (x :: rest).reverse, x :: rest, ?_, ?_, ?_, ?_, ?_,
            hb0, hc1⟩
          · simp only [splitLoop]
            rw [if_pos hlen, if_neg hd0, if_pos hd1]
            simp only [hc1]
          · simp only [List.length_cons] at hlen hd1 hT
            omega
          · simp only [List.length_append, List.length_reverse]
            push_cast
            omega
          · simp only [List.length_append, List.length_reverse]
            push_cast
            omega
          · have h1 : g0 ++ (g1 ++ (x :: rest).reverse) =
                (g0 ++ g1) ++ (x :: rest).reverse := by simp [List.append_assoc]
            rw [h1]
            exact List.Perm.append_left (g0 ++ g1) (List.reverse_perm _)
        · have hI0' : minE ≤ (g0.length : ℤ) + rest.length := by
            simp only [List.length_cons] at hI0 hd0
            push_cast at hI0 hd0 ⊢
            omega
          have hI1' : minE ≤ (g1.length : ℤ) + rest.length := by
            simp only [List.length_cons] at hI1 hd1
            push_cast at hI1 hd1 ⊢
            omega
          rcases best_two b0 b1 x.1 (height, g0) (height, g1) height with hbest | hbest
          · obtain ⟨c0, f0, c1, f1, left, heq, h1, h2, hsum, hperm, hcb0, hcb1⟩ :=
              ih (mergeMbr b0 x.1) (g0 ++ [x]) b1 g1
                (calculateMbr_append_single g0 b0 x hb0) hb1
                (by simp) hne1
                (by simp only [List.length_append, List.length_cons, List.length_nil, List.length_reverse] at hI0' ⊢; push_cast; omega)
                hI1'
                (by simp only [List.length_append, List.length_cons, List.length_nil, List.length_reverse] at hT ⊢; push_cast; push_cast at hT; omega)
            refine ⟨c0, f0, c1, f1, left, ?_, h1, h2, ?_, ?_, hcb0, hcb1⟩
            · simp only [splitLoop]
              rw [if_pos hlen, if_neg hd0, if_neg hd1]
              simp only [hbest]
              exact heq
            · simp only [List.length_append, List.length_cons, List.length_nil, List.length_reverse] at hsum ⊢
              push_cast at hsum ⊢
              omega
            · exact hperm.trans (perm_pop_left g0 g1 rest x)
          · obtain ⟨c0, f0, c1, f1, left, heq, h1, h2, hsum, hperm, hcb0, hcb1⟩ :=
              ih b0 g0 (mergeMbr b1 x.1) (g1 ++ [x])
                hb0 (calculateMbr_append_single g1 b1 x hb1)
                hne0 (by simp)
                hI0'
                (by simp only [List.length_append, List.length_cons, List.length_nil, List.length_reverse] at hI1' ⊢; push_cast; omega)
                (by simp only [List.length_append, List.length_cons, List.length_nil, List.length_reverse] at hT ⊢; push_cast; push_cast at hT; omega)
            refine ⟨c0, f0, c1, f1, left, ?_, h1, h2, ?_, ?_, hcb0, hcb1⟩
            · simp only [splitLoop]
              rw [if_pos hlen, if_neg hd0, if_neg hd1]
              simp only [hbest]
              exact heq
            · simp only [List.length_append, List.length_cons, List.length_nil, List.length_reverse] at hsum ⊢
              push_cast at hsum ⊢
              omega
            · refine hperm.trans ?_
              have h3 : g0 ++ (g1 ++ [x]) ++ rest = g0 ++ (g1 ++ (x :: rest)) := by
                simp [List.append_assoc]
              have h4 : (g0 ++ g1) ++ (x :: rest) = g0 ++ (g1 ++ (x :: rest)) := by
                simp [List.append_assoc]
              rw [h3, h4]
    · have hI0' : minE ≤ (g0.length : ℤ) + rest.length := by
        simp only [List.length_cons] at hlen
        push_cast at hlen ⊢
        omega
      have hI1' : minE ≤ (g1.length : ℤ) + rest.length := by
        simp only [List.length_cons] at hlen
        push_cast at hlen ⊢
        omega
      rcases best_two b0 b1 x.1 (height, g0) (height, g1) height with hbest | hbest
      · obtain ⟨c0, f0, c1, f1, left, heq, h1, h2, hsum, hperm, hcb0, hcb1⟩ :=
          ih (mergeMbr b0 x.1) (g0 ++ [x]) b1 g1
            (calculateMbr_append_single g0 b0 x hb0) hb1
            (by simp) hne1
            (by simp only [List.length_append, List.length_cons, List.length_nil, List.length_reverse] at hI0' ⊢; push_cast; omega)
            hI1'
            (by simp only [List.length_append, List.length_cons, List.length_nil, List.length_reverse] at hT ⊢; push_cast; push_cast at hT; omega)
        refine ⟨c0, f0, c1, f1, left, ?_, h1, h2, ?_, ?_, hcb0, hcb1⟩
        · simp only [splitLoop]
          rw [if_neg hlen]
          simp only [hbest]
          exact heq
        · simp only [List.length_append, List.length_cons, List.length_nil, List.length_reverse] at hsum ⊢
          push_cast at hsum ⊢
          omega
        · exact hperm.trans (perm_pop_left g0 g1 rest x)
      · obtain ⟨c0, f0, c1, f1, left, heq, h1, h2, hsum, hperm, hcb0, hcb1⟩ :=
          ih b0 g0 (mergeMbr b1 x.1) (g1 ++ [x])
            hb0 (calculateMbr_append_single g1 b1 x hb1)
            hne0 (by simp)
            hI0'
            (by simp only [List.length_append, List.length_cons, List.length_nil, List.length_reverse] at hI1' ⊢; push_cast; omega)
            (by simp only [List.length_append, List.length_cons, List.length_nil, List.length_reverse] at hT ⊢; push_cast; push_cast at hT; omega)
        refine ⟨c0, f0, c1, f1, left, ?_, h1, h2, ?_, ?_, hcb0, hcb1⟩
        · simp only [splitLoop]
          rw [if_neg hlen]
          simp only [hbest]
          exact heq
        · simp only [List.length_append, List.length_cons, List.length_nil, List.length_reverse] at hsum ⊢
          push_cast at hsum ⊢
          omega
        · refine hperm.trans ?_
          have h3 : g0 ++ (g1 ++ [x]) ++ rest = g0 ++ (g1 ++ (x :: rest)) := by
            simp [List.append_assoc]
          have h4 : (g0 ++ g1) ++ (x :: rest) = g0 ++ (g1 ++ (x :: rest)) := by
            simp [List.append_assoc]
          rw [h3, h4]

/-- The extreme-update loop only ever records indices of entries it has
seen. -/
theorem extremesGo_bounds {α : Type} :
    ∀ (l : List (Mbr × α)) (i : ℕ) (i0 i1 i2 i3 : ℕ) (e : ℚ × ℚ × ℚ × ℚ),
      i0 < i → i1 < i → i2 < i → i3 < i →
      (extremesGo i l ((i0, i1, i2, i3), e)).1.1 < i + l.length ∧
      (extremesGo i l ((i0, i1, i2, i3), e)).1.2.1 < i + l.length ∧
      (extremesGo i l ((i0, i1, i2, i3), e)).1.2.2.1 < i + l.length ∧
      (extremesGo i l ((i0, i1, i2, i3), e)).1.2.2.2 < i + l.length := by
  intro l
  induction l with
  | nil =>
    intro i i0 i1 i2 i3 e h0 h1 h2 h3
    simp only [extremesGo, List.length_nil, Nat.add_zero]
    exact ⟨h0, h1, h2, h3⟩
  | cons x rest ih =>
    intro i i0 i1 i2 i3 e h0 h1 h2 h3
    obtain ⟨m, y⟩ := x
    obtain ⟨e0, e1, e2, e3⟩ := e
    simp only [extremesGo]
    have hgoal :
        ∀ j0 j1 j2 j3 : ℕ, j0 < i + 1 → j1 < i + 1 → j2 < i + 1 → j3 < i + 1 →
        ∀ f : ℚ × ℚ × ℚ × ℚ,
          (extremesGo (i + 1) rest ((j0, j1, j2, j3), f)).1.1 < i + (rest.length + 1) ∧
          (extremesGo (i + 1) rest ((j0, j1, j2, j3), f)).1.2.1 < i + (rest.length + 1) ∧
          (extremesGo (i + 1) rest ((j0, j1, j2, j3), f)).1.2.2.1 < i + (rest.length + 1) ∧
          (extremesGo (i + 1) rest ((j0, j1, j2, j3), f)).1.2.2.2 < i + (rest.length + 1) := by
      intro j0 j1 j2 j3 k0 k1 k2 k3 f
      have := ih (i + 1) j0 j1 j2 j3 f k0 k1 k2 k3
      omega
    split <;> split <;> split <;> split <;>
      exact hgoal _ _ _ _ (by omega) (by omega) (by omega) (by omega) _

/-- The indices returned by `__extremes` are valid positions. -/
theorem extremes_bounds {α : Type} (data : List (Mbr × α)) (i0 i1 i2 i3 : ℕ)
    (e : ℚ × ℚ × ℚ × ℚ) (h : extremes data = some ((i0, i1, i2, i3), e)) :
    i0 < data.length ∧ i1 < data.length ∧ i2 < data.length ∧ i3 < data.length := by
  cases data with
  | nil => simp [extremes] at h
  | cons x rest =>
    obtain ⟨m, y⟩ := x
    simp only [extremes, Option.some.injEq] at h
    have hb := extremesGo_bounds rest 1 0 0 0 0 (m.x1, m.y1, m.x2, m.y2)
      (by omega) (by omega) (by omega) (by omega)
    rw [h] at hb
    have hb0 : i0 < 1 + rest.length := by simpa using hb.1
    have hb1 : i1 < 1 + rest.length := by simpa using hb.2.1
    have hb2 : i2 < 1 + rest.length := by simpa using hb.2.2.1
    have hb3 : i3 < 1 + rest.length := by simpa using hb.2.2.2
    simp only [List.length_cons]
    omega

/-- The seeds returned by `_pick_linear_seeds` are two distinct valid
positions (on any list with at least two entries). -/
theorem pick_bounds {α β : Type} (re : List (Mbr × α)) (data : List (Mbr × β)) (i j : ℕ)
    (hlen : 2 ≤ data.length) (h : pickLinearSeeds re data = .ok (i, j)) :
    i ≠ j ∧ i < data.length ∧ j < data.length := by
  unfold pickLinearSeeds at h
  split at h
  · exact absurd h (by simp)
  · split at h
    · exact absurd h (by simp)
    · rename_i g hex i0 i1 i2 i3 e0 e1 e2 e3 heq
      simp only [] at h
      split at h
      · exact absurd h (by simp)
      · split at h
        · rename_i hcond
          injection h with h2
          injection h2 with hA hB
          obtain ⟨hb0, hb1, hb2, hb3⟩ := extremes_bounds data i0 i1 i2 i3 (e0, e1, e2, e3) heq
          subst hA
          subst hB
          exact ⟨hcond.2, hb0, hb2⟩
        · split at h
          · rename_i hcond
            injection h with h2
            injection h2 with hA hB
            obtain ⟨hb0, hb1, hb2, hb3⟩ := extremes_bounds data i0 i1 i2 i3 (e0, e1, e2, e3) heq
            subst hA
            subst hB
            exact ⟨hcond.2, hb1, hb3⟩
          · injection h with h2
            injection h2 with hA hB
            subst hA
            subst hB
            exact ⟨by omega, by omega, by omega⟩

/-- A list is a permutation of any element consed onto its erasure. -/
theorem perm_cons_eraseIdx {α : Type} (l : List α) (k : ℕ) (hk : k < l.length) :
    l.Perm (l.get ⟨k, hk⟩ :: l.eraseIdx k) := by
  simp only [List.get_eq_getElem]
  conv_lhs => rw [← List.take_append_drop k l]
  rw [List.eraseIdx_eq_take_drop_succ]
  rw [← List.getElem_cons_drop l k hk]
  exact List.perm_middle

/-- Removing the two seed positions (larger index first, as `_split`
does) leaves a remainder that together with the two seeds permutes the
input. -/
theorem perm_seeds_erase {α : Type} (l : List α) (u v : ℕ) (huv : u < v)
    (hv : v < l.length) (hu : u < l.length) :
    l.Perm (l.get ⟨u, hu⟩ :: l.get ⟨v, hv⟩ :: (l.eraseIdx v).eraseIdx u) := by
  have hlen : (l.eraseIdx v).length = l.length - 1 := by
    rw [List.length_eraseIdx]
    simp [hv]
  have hu' : u < (l.eraseIdx v).length := by omega
  have h1 := perm_cons_eraseIdx l v hv
  have h2 := perm_cons_eraseIdx (l.eraseIdx v) u hu'
  have h3 : (l.eraseIdx v).get ⟨u, hu'⟩ = l.get ⟨u, hu⟩ := by
    simp only [List.get_eq_getElem]
    exact List.getElem_eraseIdx_of_lt l v u hu' huv
  rw [h3] at h2
  exact h1.trans ((h2.cons _).trans (List.Perm.swap _ _ _))

/-- The MBR of a one-entry list is its box. -/
theorem calculateMbr_single {α : Type} (e : Mbr × α) : calculateMbr [e] = some e.1 := by
  obtain ⟨m, y⟩ := e
  rfl

/-- The input permutes into seeds plus remainder, in either index
order. -/
theorem perm_seeds_any {α : Type} (l : List α) (i j : ℕ) (hij : i ≠ j)
    (hi : i < l.length) (hj : j < l.length) :
    l.Perm (l.get ⟨i, hi⟩ :: l.get ⟨j, hj⟩ :: (l.eraseIdx (max i j)).eraseIdx (min i j)) := by
  rcases Nat.lt_or_ge i j with hlt | hge
  · rw [max_eq_right hlt.le, min_eq_left hlt.le]
    exact perm_seeds_erase l i j hlt hj hi
  · have hlt : j < i := by omega
    rw [max_eq_left hlt.le, min_eq_right hlt.le]
    exact (perm_seeds_erase l j i hlt hi hj).trans (List.Perm.swap _ _ _)

/-- C2 (amended): on an overflowing list of exactly `max_entries + 1`
entries, provided seed selection succeeds (it raises `ZeroDivisionError`
when the global root extent is degenerate — see the counterexample),
`_split` returns exactly two `(box, node)` pairs whose entry counts lie
between `min_entries` and `total − min_entries`, which together contain
every input entry exactly once, and whose boxes are the merges of their
entries. -/
theorem c2_linear_split {α γ : Type} (minE maxE : ℤ) (rootEntries : List (Mbr × γ))
    (height : ℕ) (data : List (Mbr × α)) (i j : ℕ)
    (hmin : 1 ≤ minE) (hmax : 2 * minE ≤ maxE) (hlen : (data.length : ℤ) = maxE + 1)
    (hpick : pickLinearSeeds rootEntries data = .ok (i, j)) :
    ∃ b0 g0 b1 g1 left,
      linearSplit minE rootEntries height data =
        .ok ([(b0, (height, g0)), (b1, (height, g1))], left) ∧
      minE ≤ (g0.length : ℤ) ∧ (g0.length : ℤ) ≤ maxE + 1 - minE ∧
      minE ≤ (g1.length : ℤ) ∧ (g1.length : ℤ) ≤ maxE + 1 - minE ∧
      ((g0.length : ℤ) + (g1.length : ℤ) = maxE + 1) ∧
      (g0 ++ g1).Perm data ∧
      calculateMbr g0 = some b0 ∧ calculateMbr g1 = some b1 := by
  have hlen2 : 2 ≤ data.length := by omega
  obtain ⟨hij, hi, hj⟩ := pick_bounds rootEntries data i j hlen2 hpick
  have hgi : data.get? i = some (data.get ⟨i, hi⟩) := List.get?_eq_get hi
  have hgj : data.get? j = some (data.get ⟨j, hj⟩) := List.get?_eq_get hj
  have hmaxlt : max i j < data.length := by omega
  have hrest1 : ((data.eraseIdx (max i j)).length : ℤ) = maxE := by
    rw [List.length_eraseIdx]
    simp only [hmaxlt, if_pos]
    omega
  have hminlt : min i j < (data.eraseIdx (max i j)).length := by omega
  have hrest2 : (((data.eraseIdx (max i j)).eraseIdx (min i j)).length : ℤ) = maxE - 1 := by
    rw [List.length_eraseIdx]
    simp only [hminlt, if_pos]
    omega
  obtain ⟨c0, f0, c1, f1, left, heq, hf0, hf1, hsum, hperm, hc0, hc1⟩ :=
    splitLoop_spec minE height ((data.eraseIdx (max i j)).eraseIdx (min i j)).reverse
      (data.get ⟨i, hi⟩).1 [data.get ⟨i, hi⟩] (data.get ⟨j, hj⟩).1 [data.get ⟨j, hj⟩]
      (calculateMbr_single _) (calculateMbr_single _) (by simp) (by simp)
      (by simp only [List.length_reverse, List.length_singleton]; omega)
      (by simp only [List.length_reverse, List.length_singleton]; omega)
      (by simp only [List.length_reverse, List.length_singleton]; omega)
  refine ⟨c0, f0, c1, f1, left.reverse, ?_, hf0, ?_, hf1, ?_, ?_, ?_, hc0, hc1⟩
  · simp only [linearSplit, hpick, hgi, hgj]
    rw [heq]
  · simp only [List.length_reverse, List.length_singleton] at hsum
    omega
  · simp only [List.length_reverse, List.length_singleton] at hsum
    omega
  · simp only [List.length_reverse, List.length_singleton] at hsum
    omega
  · refine hperm.trans ?_
    refine List.Perm.trans ?_ (perm_seeds_any data i j hij hi hj).symm
    have h1 : ([data.get ⟨i, hi⟩] ++ [data.get ⟨j, hj⟩]) ++
        ((data.eraseIdx (max i j)).eraseIdx (min i j)).reverse =
        data.get ⟨i, hi⟩ :: data.get ⟨j, hj⟩ ::
          ((data.eraseIdx (max i j)).eraseIdx (min i j)).reverse := rfl
    rw [h1]
    exact ((List.reverse_perm _).cons _).cons _

set_option synthInstance.maxSize 512 in
/-- C2 counterexample: an input of exactly `max_entries + 1 = 5` entries
(`max_entries = 4`, `min_entries = 2`) on which `_split` does not return
two pairs: the global root extent is degenerate and seed selection raises
`ZeroDivisionError`. -/
theorem c2_counterexample :
    (List.replicate 5 ((⟨0, 0, 0, 0⟩ : Mbr), (7 : ℕ))).length = 4 + 1 ∧
    linearSplit 2 (List.replicate 5 ((⟨0, 0, 0, 0⟩ : Mbr), (7 : ℕ))) 0
      (List.replicate 5 ((⟨0, 0, 0, 0⟩ : Mbr), (7 : ℕ))) = .error .zeroDiv := by
  decide

/-- The five boxes of the spec's Scenario A: two spatially disjoint
clusters of sizes 3 and 2, overflowing a `max_entries = 4` node. -/
def scenarioA : List (Mbr × ℕ) :=
  [(⟨0, 0, 1, 1⟩, 1), (⟨0, 1, 1, 2⟩, 2), (⟨1, 0, 2, 1⟩, 3),
   (⟨10, 10, 11, 11⟩, 4), (⟨10, 11, 11, 12⟩, 5)]

/-- C2 witness: the amended split postcondition at Scenario A. -/
theorem c2_linear_split_witness :
    ∃ b0 g0 b1 g1 left,
      linearSplit 2 scenarioA 0 scenarioA =
        .ok ([(b0, (0, g0)), (b1, (0, g1))], left) ∧
      2 ≤ (g0.length : ℤ) ∧ (g0.length : ℤ) ≤ 4 + 1 - 2 ∧
      2 ≤ (g1.length : ℤ) ∧ (g1.length : ℤ) ≤ 4 + 1 - 2 ∧
      ((g0.length : ℤ) + (g1.length : ℤ) = 4 + 1) ∧
      (g0 ++ g1).Perm scenarioA ∧
      calculateMbr g0 = some b0 ∧ calculateMbr g1 = some b1 :=
  c2_linear_split 2 4 scenarioA 0 scenarioA 3 0
    (by decide) (by decide) (by decide) (by decide)
